import Mathlib

/-!
Verification of the funcflow call-graph / impact-analysis core.

The TypeScript front end (project scanning, AST construction, symbol
resolution) is treated as an external collaborator, following the spec's
interface boundary: a project is modelled as the list of function
definitions it produces, each carrying the call sites found in its body.
All core algorithms (graph building, caller resolution, transitive impact,
cycle detection, scoring, suggestions, input validation) are embedded
directly from the source.

JavaScript `Map` objects are modelled as association lists with
`Map.set` semantics (update in place when the key exists, append
otherwise); JavaScript arrays as lists with push = append at the end.
-/

namespace FuncFlow

/-- A call site recorded inside a function body
(`CallInfo` in `call-analyzer.ts`). -/
structure CallInfo where
  calleeName : String
  locFile : String
  locLine : Nat
  locColumn : Nat
  fullExpression : String
deriving Repr, DecidableEq

/-- A function definition produced by the language front end, together with
the call sites found in its body (the Call Index entry for that function). -/
structure FuncDef where
  name : String
  filePath : String
  line : Nat
  column : Nat
  kind : String
  calls : List CallInfo
deriving Repr, DecidableEq

/-- A node of the call graph (`FunctionNode` in `graph/types.ts`). -/
structure FunctionNode where
  name : String
  file : String
  line : Nat
  column : Nat
  kind : String
deriving Repr, DecidableEq

/-- An edge of the call graph (`CallEdge` in `graph/types.ts`). -/
structure CallEdge where
  fromName : String
  toName : String
  file : String
  line : Nat
deriving Repr, DecidableEq

/-- Result of `buildCallGraph` (`CallGraph` in `graph/types.ts`); `nodes`
is the name-keyed `Map` in insertion order. -/
structure CallGraph where
  targetName : String
  nodes : List (String × FunctionNode)
  edges : List CallEdge
  callers : List String
  callees : List String
deriving Repr, DecidableEq

/-- Traversal direction. -/
inductive Direction where
  | callers
  | callees
  | both
deriving Repr, DecidableEq

/-- Keys of an association list, in insertion order. -/
def keys {β : Type} (m : List (String × β)) : List String :=
  m.map (fun p => p.1)

/-- `Map.get(k)` with a default (`map.get(k) || d` in the source). -/
def lookupD {β : Type} (m : List (String × β)) (k : String) (d : β) : β :=
  (m.lookup k).getD d

/-- `Map.set(k, v)`: replace the value in place when the key is present
(the first matching entry, which is the one `Map.get` sees), append a new
entry at the end otherwise. -/
def mapSet {β : Type} : List (String × β) → String → β → List (String × β)
  | [], k, v => [(k, v)]
  | p :: ps, k, v =>
      if p.1 == k then (p.1, v) :: ps else p :: mapSet ps k v

/-- First-occurrence deduplication (`[...new Set(xs)]` in the source). -/
def dedupFirst (l : List String) : List String :=
  l.foldl (fun acc x => if acc.contains x then acc else acc ++ [x]) []

/-! ### Complexity and risk scoring (`impact-analyzer.ts`) -/

/-- `ComplexityMetrics` of `impact-analyzer.ts`. -/
structure ComplexityMetrics where
  fanIn : Nat
  fanOut : Nat
  cyclomaticComplexity : Nat
  isHotspot : Bool
  hotspotScore : Nat
deriving Repr, DecidableEq

/-- `calculateComplexity`: the cyclomatic complexity of the target's body is
computed by the front-end-facing AST walk and enters here as an input.
`Math.round(x * 1.5)` on a natural number `x` is `(3 * x + 1) / 2` in
integer arithmetic (JavaScript rounds halves up). -/
def calculateComplexity (cyclomaticComplexity fanIn fanOut : Nat) :
    ComplexityMetrics :=
  let fanInThreshold := 5
  let fanOutThreshold := 5
  let isHotspot : Bool :=
    decide (fanInThreshold ≤ fanIn) && decide (fanOutThreshold ≤ fanOut)
  let base := fanIn * 3 + fanOut * 2 + cyclomaticComplexity * 2
  let hotspotScore := min 100 (if isHotspot then (3 * base + 1) / 2 else base)
  { fanIn := fanIn
    fanOut := fanOut
    cyclomaticComplexity := cyclomaticComplexity
    isHotspot := isHotspot
    hotspotScore := hotspotScore }

/-- The weighted sum inside `calculateRiskScore`, before the `min(100, ·)`
clamp.  Integer-valued: JavaScript subtraction can go below zero. -/
def preClampRiskScore (directCallers totalAffected : Nat) (isHotspot : Bool)
    (circularDeps cyclomaticComplexity : Nat) : Int :=
  let callerWeight : Int := 2
  let transitiveWeight : Int := 1
  let hotspotWeight : Int := 15
  let circularWeight : Int := 10
  let complexityWeight : Int := 1
  (directCallers : Int) * callerWeight +
    ((totalAffected : Int) - (directCallers : Int)) * transitiveWeight +
    (if isHotspot then hotspotWeight else 0) +
    (circularDeps : Int) * circularWeight +
    ((cyclomaticComplexity : Nat) / 5 : Nat) * complexityWeight

/-- `calculateRiskScore` of `impact-analyzer.ts`. -/
def calculateRiskScore (directCallers totalAffected : Nat)
    (complexity : ComplexityMetrics) (circularDeps : Nat) : Int :=
  min 100 (preClampRiskScore directCallers totalAffected complexity.isHotspot
    circularDeps complexity.cyclomaticComplexity)

/-- The risk-score formula exactly as the spec writes it:
`min(100, directCallers*2 + (totalAffected - directCallers)*1 +
(isHotspot ? 15 : 0) + cycleCount*10 + floor(cyclomaticComplexity/5)*1)`. -/
def riskScoreSpecFormula (directCallers totalAffected : Nat) (isHotspot : Bool)
    (cycleCount cyclomaticComplexity : Nat) : Int :=
  min 100 ((directCallers : Int) * 2 +
    ((totalAffected : Int) - (directCallers : Int)) * 1 +
    (if isHotspot then 15 else 0) +
    (cycleCount : Int) * 10 +
    ((cyclomaticComplexity / 5 : Nat) : Int) * 1)

/-- `getRiskLevel` of `impact-analyzer.ts`. -/
def getRiskLevel (score : Int) : String :=
  if score < 10 then "low"
  else if score < 30 then "medium"
  else if score < 60 then "high"
  else "critical"

/-! ### Smart suggestions (`impact-analyzer.ts`, `generateSuggestions`) -/

/-- Suggestion type tag. -/
inductive SuggestionType where
  | warning
  | info
  | refactor
deriving Repr, DecidableEq

/-- `SmartSuggestion` of `impact-analyzer.ts`. -/
structure SmartSuggestion where
  type : SuggestionType
  message : String
  severity : Nat
deriving Repr, DecidableEq

/-- Insert a suggestion after every element of at least its severity:
one step of a stable descending insertion sort. -/
def insertBySeverityDesc (s : SmartSuggestion) :
    List SmartSuggestion → List SmartSuggestion
  | [] => [s]
  | t :: ts =>
      if t.severity < s.severity then s :: t :: ts
      else t :: insertBySeverityDesc s ts

/-- Stable sort by severity, highest first.  `Array.prototype.sort` with the
comparator `(a, b) => b.severity - a.severity` is a stable descending sort
(stable since ES2019), and every stable sort produces this same list. -/
def sortBySeverityDesc (l : List SmartSuggestion) : List SmartSuggestion :=
  l.foldr insertBySeverityDesc []

/-- The suggestion list of `generateSuggestions` in generation order, before
the final severity sort: caller-count band, one warning per circular
dependency, fan-out band, hotspot warning, cyclomatic-complexity band. -/
def generateSuggestionsRaw (functionName : String) (callerCount : Nat)
    (complexity : ComplexityMetrics) (circularDeps : List (List String))
    (callees : List String) : List SmartSuggestion :=
  let callerSugs : List SmartSuggestion :=
    if 10 ≤ callerCount then
      [⟨SuggestionType.warning,
        "This function has " ++ toString callerCount ++
          " callers - consider if changes are safe and plan thorough testing",
        4⟩]
    else if 5 ≤ callerCount then
      [⟨SuggestionType.info,
        "This function has " ++ toString callerCount ++
          " callers - changes may have moderate impact", 2⟩]
    else []
  let cycleSugs : List SmartSuggestion :=
    circularDeps.map (fun cycle =>
      ⟨SuggestionType.warning,
        "Circular dependency detected: " ++ String.intercalate " -> " cycle,
        5⟩)
  let fanOutSugs : List SmartSuggestion :=
    if 15 ≤ callees.length then
      [⟨SuggestionType.refactor,
        "This function calls " ++ toString callees.length ++
          " others - consider breaking it up into smaller functions", 3⟩]
    else if 10 ≤ callees.length then
      [⟨SuggestionType.info,
        "This function calls " ++ toString callees.length ++
          " other functions - consider if it has too many responsibilities",
        2⟩]
    else []
  let hotspotSugs : List SmartSuggestion :=
    if complexity.isHotspot then
      [⟨SuggestionType.warning,
        "\"" ++ functionName ++
          "\" is a hotspot (high fan-in AND fan-out) - changes here are high-risk",
        5⟩]
    else []
  let ccSugs : List SmartSuggestion :=
    if 15 ≤ complexity.cyclomaticComplexity then
      [⟨SuggestionType.refactor,
        "High cyclomatic complexity (" ++
          toString complexity.cyclomaticComplexity ++
          ") - consider simplifying the logic", 3⟩]
    else if 10 ≤ complexity.cyclomaticComplexity then
      [⟨SuggestionType.info,
        "Moderate cyclomatic complexity (" ++
          toString complexity.cyclomaticComplexity ++
          ") - function has many decision paths", 2⟩]
    else []
  callerSugs ++ cycleSugs ++ fanOutSugs ++ hotspotSugs ++ ccSugs

/-- `generateSuggestions` of `impact-analyzer.ts`: generation order followed
by the stable sort by severity (highest first). -/
def generateSuggestions (functionName : String) (callerCount : Nat)
    (complexity : ComplexityMetrics) (circularDeps : List (List String))
    (callees : List String) : List SmartSuggestion :=
  sortBySeverityDesc
    (generateSuggestionsRaw functionName callerCount complexity circularDeps
      callees)

/-! ### MCP handler depth validation (`mcp/handlers.ts`) -/

/-- `MAX_DEPTH` of `mcp/handlers.ts`. -/
def MAX_DEPTH : Int := 10

/-- `MIN_DEPTH` of `mcp/handlers.ts`. -/
def MIN_DEPTH : Int := 1

/-- The possible JavaScript values of the `depth` argument of a tool call:
absent, `null`, a non-number value, `NaN`, an infinity, or a finite number
(every finite IEEE double is a rational, so finite numbers are modelled
by `ℚ`). -/
inductive JSDepthInput where
  | undef
  | null
  | notNumber
  | nan
  | posInf
  | negInf
  | num (q : ℚ)
deriving DecidableEq

/-- `validateDepth` of `mcp/handlers.ts`.  For `±Infinity` the chain
`Math.min(Math.max(1, Math.floor(±∞)), 10)` evaluates to `10` and `1`
respectively, written out here because `ℚ` has no infinities. -/
def validateDepth (depth : JSDepthInput) (defaultValue : Int) : Int :=
  match depth with
  | JSDepthInput.undef => defaultValue
  | JSDepthInput.null => defaultValue
  | JSDepthInput.notNumber => defaultValue
  | JSDepthInput.nan => defaultValue
  | JSDepthInput.posInf => MAX_DEPTH
  | JSDepthInput.negInf => MIN_DEPTH
  | JSDepthInput.num q => min (max MIN_DEPTH ⌊q⌋) MAX_DEPTH

/-! ### Error messages (`constants/errors.ts`) -/

/-- `ErrorMessages.NO_SOURCE_FILES`. -/
def NO_SOURCE_FILES (projectRoot : String) : String :=
  "No source files found in " ++ projectRoot

/-- `ErrorMessages.FUNCTION_NOT_FOUND`: reports the function name, the
searched scope, and the number of files searched. -/
def FUNCTION_NOT_FOUND (functionName searchScope : String)
    (fileCount : Nat) : String :=
  "Function \"" ++ functionName ++ "\" not found in " ++ searchScope ++
    ". Searched " ++ toString fileCount ++ " files."

/-- The inline not-found message thrown by `analyzeImpact`
(`impact-analyzer.ts`): scope only, no file count. -/
def impactNotFoundMessage (functionName searchScope : String) : String :=
  "Function \"" ++ functionName ++ "\" not found in " ++ searchScope

/-! ### Built-in filters -/

/-- `globalBuiltIns` of `graph/builder.ts` (`isBuiltInFunction`). -/
def globalBuiltIns : List String :=
  ["setTimeout", "setInterval", "clearTimeout", "clearInterval",
   "setImmediate", "clearImmediate", "require", "eval", "parseInt",
   "parseFloat", "isNaN", "isFinite", "encodeURI", "decodeURI",
   "encodeURIComponent", "decodeURIComponent"]

/-- `builtInReceivers` of `graph/builder.ts` (`isBuiltInFunction`). -/
def builtInReceivers : List String :=
  ["console", "Math", "JSON", "Object", "Array", "String", "Number",
   "Boolean", "Date", "Promise", "Reflect", "Proxy", "Symbol", "BigInt",
   "Map", "Set", "WeakMap", "WeakSet", "RegExp", "Error", "process"]

/-- `isBuiltInFunction` of `graph/builder.ts`. -/
def isBuiltInFunction (name : String) (fullExpression : String) : Bool :=
  globalBuiltIns.contains name ||
    builtInReceivers.any (fun receiver =>
      fullExpression.startsWith (receiver ++ "."))

/-- The built-in name list of `impact-analyzer.ts` (`isBuiltIn`). -/
def impactBuiltIns : List String :=
  ["console", "log", "error", "warn", "info", "debug", "setTimeout",
   "setInterval", "clearTimeout", "clearInterval", "parseInt", "parseFloat",
   "JSON", "parse", "stringify", "require", "map", "filter", "reduce",
   "forEach", "push", "pop", "shift", "unshift", "slice", "splice", "join",
   "split", "toString", "valueOf"]

/-- `isBuiltIn` of `impact-analyzer.ts`. -/
def isBuiltIn (name : String) : Bool :=
  impactBuiltIns.contains name

/-! ### Function lookup (`function-finder.ts`) -/

/-- `findFunction`: all definitions with the given name, restricted to one
file when `filePath` is given, in front-end scan order. -/
def findFunction (defs : List FuncDef) (functionName : String)
    (filePath : Option String) : List FuncDef :=
  let inScope : List FuncDef :=
    match filePath with
    | some f => defs.filter (fun d => d.filePath == f)
    | none => defs
  inScope.filter (fun d => d.name == functionName)

/-! ### Callee graph builder (`graph/builder.ts`, `buildCallees`)

The source recursion is bounded by `currentDepth`, which starts at 0,
increases by 1 on each recursive call, and stops as soon as
`currentDepth >= maxDepth`.  The embedding carries the equivalent quantity
`remaining = maxDepth - currentDepth` (so the stop guard is
`remaining = 0`) and the flag `isTop` standing for `currentDepth === 0`.
The mutable `nodes`/`edges`/`visited` of the source become an explicit
state. -/

/-- The mutable traversal state of `buildCallGraph`. -/
structure BuildState where
  nodes : List (String × FunctionNode)
  edges : List CallEdge
  visited : List String
deriving Repr, DecidableEq

/-- The placeholder node created for a callee from its call site
(before its definition is resolved). -/
def nodeOfCall (c : CallInfo) : FunctionNode :=
  { name := c.calleeName
    file := c.locFile
    line := c.locLine
    column := c.locColumn
    kind := "function" }

/-- The node created for a resolved function definition. -/
def nodeOfDef (d : FuncDef) : FunctionNode :=
  { name := d.name
    file := d.filePath
    line := d.line
    column := d.column
    kind := d.kind }

/-- The `for (const call of calls)` loop of `buildCallees`: skip built-ins,
push the edge, record a direct callee at the top level, add the node, and
recurse into the callee (via `child`, the traversal one level deeper) when
its definition resolves. -/
def buildCalleesLoop (defs : List FuncDef)
    (child : String → List CallInfo → BuildState → BuildState)
    (isTop : Bool) (functionName : String) :
    List CallInfo → BuildState → List String → BuildState × List String
  | [], st, acc => (st, acc)
  | c :: rest, st, acc =>
      if isBuiltInFunction c.calleeName c.fullExpression then
        buildCalleesLoop defs child isTop functionName rest st acc
      else
        let st1 : BuildState :=
          { st with edges :=
              st.edges ++ [⟨functionName, c.calleeName, c.locFile, c.locLine⟩] }
        let acc1 := if isTop then acc ++ [c.calleeName] else acc
        let st2 : BuildState :=
          if (keys st1.nodes).contains c.calleeName then st1
          else { st1 with nodes := st1.nodes ++ [(c.calleeName, nodeOfCall c)] }
        match findFunction defs c.calleeName none with
        | [] => buildCalleesLoop defs child isTop functionName rest st2 acc1
        | d :: _ =>
            let st3 : BuildState :=
              { st2 with nodes := mapSet st2.nodes c.calleeName (nodeOfDef d) }
            let st4 := child c.calleeName d.calls st3
            buildCalleesLoop defs child isTop functionName rest st4 acc1

/-- Body of `buildCallees`: depth guard, visited guard, mark visited, then
process the call list, recursing one level deeper (`remaining - 1`). -/
def buildCalleesGo (defs : List FuncDef) :
    Nat → Bool → String → List CallInfo → BuildState →
      BuildState × List String
  | 0, _, _, _, st => (st, [])
  | Nat.succ r, isTop, functionName, calls, st =>
      if st.visited.contains functionName then (st, [])
      else
        buildCalleesLoop defs
          (fun n cs s => (buildCalleesGo defs r false n cs s).1)
          isTop functionName calls
          { st with visited := st.visited ++ [functionName] } []

/-! ### Caller resolver (`graph/builder.ts`, `findCallers`)

`findCallers` first builds a project-wide map from function name to its
definition info and raw callee-name list (`functionCallMap`, with `Map.set`
overwrite semantics for duplicate names), then expands backward from the
target with the same visited-before-recurse, depth-bounded scheme. -/

/-- The `functionCallMap` of `findCallers`: name to definition, in scan
order, later same-name definitions overwriting earlier ones. -/
def cliFunctionCallMap (defs : List FuncDef) : List (String × FuncDef) :=
  defs.foldl (fun m d => mapSet m d.name d) []

/-- The raw callee-name list of a definition (`calls.map(c => c.calleeName)`,
no built-in filter, no deduplication). -/
def rawCalleeNames (d : FuncDef) : List String :=
  d.calls.map (fun c => c.calleeName)

/-- The `for (const [callerName, data] of functionCallMap)` loop of
`findCallersRecursive`; `child` is the backward traversal one level
deeper. -/
def findCallersLoop (targetFunctionName : String)
    (child : String → BuildState → List String → BuildState × List String)
    (isDirect : Bool) (funcName : String) :
    List (String × FuncDef) → BuildState → List String →
      BuildState × List String
  | [], st, directCallers => (st, directCallers)
  | (callerName, d) :: rest, st, directCallers =>
      if (rawCalleeNames d).contains funcName && callerName != funcName then
        let dc1 :=
          if isDirect && funcName == targetFunctionName then
            directCallers ++ [callerName]
          else directCallers
        let st1 : BuildState :=
          if (keys st.nodes).contains callerName then st
          else { st with nodes := st.nodes ++ [(callerName, nodeOfDef d)] }
        let st2 : BuildState :=
          if st1.edges.any (fun e =>
              e.fromName == callerName && e.toName == funcName) then st1
          else
            { st1 with edges :=
                st1.edges ++ [⟨callerName, funcName, d.filePath, d.line⟩] }
        let stepped := child callerName st2 dc1
        findCallersLoop targetFunctionName child isDirect funcName rest
          stepped.1 stepped.2
      else
        findCallersLoop targetFunctionName child isDirect funcName rest st
          directCallers

/-- Body of `findCallersRecursive`: depth guard, visited guard, mark
visited, then scan every entry of the project call map. -/
def findCallersGo (fcm : List (String × FuncDef))
    (targetFunctionName : String) :
    Nat → Bool → String → BuildState → List String →
      BuildState × List String
  | 0, _, _, st, directCallers => (st, directCallers)
  | Nat.succ r, isDirect, funcName, st, directCallers =>
      if st.visited.contains funcName then (st, directCallers)
      else
        findCallersLoop targetFunctionName
          (fun n s dc => findCallersGo fcm targetFunctionName r false n s dc)
          isDirect funcName fcm
          { st with visited := st.visited ++ [funcName] } directCallers

/-- `buildCallGraph` of `graph/builder.ts`: seed the node map with the
target, run the callee pass (directions `callees`/`both`) and then the
caller pass (directions `callers`/`both`); the caller pass shares the node
and edge collections but uses its own fresh visited set. -/
def buildCallGraph (defs : List FuncDef) (target : FuncDef) (depth : Nat)
    (direction : Direction) : CallGraph :=
  let st0 : BuildState :=
    { nodes := [(target.name, nodeOfDef target)], edges := [], visited := [] }
  let calleesRes :=
    if direction == Direction.callees || direction == Direction.both then
      buildCalleesGo defs depth true target.name target.calls st0
    else (st0, [])
  let stAfterCallees : BuildState :=
    { nodes := calleesRes.1.nodes, edges := calleesRes.1.edges, visited := [] }
  let callersRes :=
    if direction == Direction.callers || direction == Direction.both then
      findCallersGo (cliFunctionCallMap defs) target.name depth true
        target.name stAfterCallees []
    else (stAfterCallees, [])
  { targetName := target.name
    nodes := callersRes.1.nodes
    edges := callersRes.1.edges
    callers := callersRes.2
    callees := calleesRes.2 }

/-! ### Project call maps (`impact-analyzer.ts`, `buildProjectCallMap`) -/

/-- The deduplicated, built-in-filtered callee names of a definition
(`[...new Set(calls.map(c => c.calleeName).filter(n => !isBuiltIn(n)))]`). -/
def calleeNamesOf (d : FuncDef) : List String :=
  dedupFirst ((d.calls.map (fun c => c.calleeName)).filter
    (fun n => !isBuiltIn n))

/-- The `functionCallMap` of `buildProjectCallMap`: name to filtered callee
names, in scan order, later same-name definitions overwriting earlier. -/
def buildFunctionCallMap (defs : List FuncDef) : List (String × List String) :=
  defs.foldl (fun m d => mapSet m d.name (calleeNamesOf d)) []

/-- The `if (!callersMap.has(callee)) callersMap.set(callee, [])` step:
ensure an entry exists for `callee`. -/
def addCallerEnsured (m : List (String × List String)) (callee : String) :
    List (String × List String) :=
  if (keys m).contains callee then m else m ++ [(callee, [])]

/-- One step of the reverse-map construction: ensure an entry exists for
`callee`, then append `funcName` to it unless already present. -/
def addCaller (m : List (String × List String)) (callee funcName : String) :
    List (String × List String) :=
  if (lookupD (addCallerEnsured m callee) callee []).contains funcName then
    addCallerEnsured m callee
  else
    mapSet (addCallerEnsured m callee) callee
      (lookupD (addCallerEnsured m callee) callee [] ++ [funcName])

/-- The `callersMap` of `buildProjectCallMap`: invert the forward map. -/
def buildCallersMap (fcm : List (String × List String)) :
    List (String × List String) :=
  fcm.foldl (fun m p => p.2.foldl (fun m2 callee => addCaller m2 callee p.1) m)
    []

/-! ### Transitive callers (`impact-analyzer.ts`, `findTransitiveCallers`) -/

/-- Process one breadth level: returns the callers recorded at this level,
the candidate next level, and the grown visited set, mirroring the inner
`for (const caller of currentLevel)` loop. -/
def transStep (cm : List (String × List String)) :
    List String → List String → List String × List String × List String
  | [], visited => ([], [], visited)
  | caller :: rest, visited =>
      if visited.contains caller then transStep cm rest visited
      else
        let visited1 := visited ++ [caller]
        let nextHere :=
          (lookupD cm caller []).filter (fun c => !visited1.contains c)
        let restRes := transStep cm rest visited1
        (caller :: restRes.1, nextHere ++ restRes.2.1, restRes.2.2)

/-- The per-depth levels, depth 1 first (empty levels included here;
the result map drops them). -/
def findTransitiveCallersAux (cm : List (String × List String)) :
    Nat → List String → List String → List (List String)
  | 0, _, _ => []
  | Nat.succ d, currentLevel, visited =>
      let step := transStep cm currentLevel visited
      step.1 :: findTransitiveCallersAux cm d step.2.1 step.2.2

/-- `findTransitiveCallers`: the result `Map` from depth to the callers
first discovered at that depth; a depth is present only when some caller
was recorded there. -/
def findTransitiveCallers (functionName : String)
    (cm : List (String × List String)) (maxDepth : Nat) :
    List (Nat × List String) :=
  let levels :=
    findTransitiveCallersAux cm maxDepth (lookupD cm functionName [])
      [functionName]
  (levels.enum.map (fun p => (p.1 + 1, p.2))).filter (fun p => !p.2.isEmpty)

/-! ### Cycle detection (`impact-analyzer.ts`, `detectCircularDependencies`)

The source DFS terminates because the global visited set grows on every
productive step; the embedding makes that bound explicit with a fuel
argument that dominates the recursion depth (one unit per nested call).
The wrapper passes more fuel than the traversal can ever consume, so the
guards of the source fire before the fuel does. -/

/-- The duplicate check of `detectCircularDependencies`: same length and
every name of the recorded cycle occurs in the new one. -/
def cycleIsDuplicate (cycles : List (List String)) (cycle : List String) :
    Bool :=
  cycles.any (fun existing =>
    existing.length == cycle.length &&
      existing.all (fun f => cycle.contains f))

/-- The state threaded through the cycle-detection DFS. -/
structure DfsState where
  cycles : List (List String)
  visited : List String
  path : List String
deriving Repr, DecidableEq

/-- The `for (const callee of callees) dfs(callee)` loop; `child` is the
DFS on one unit less fuel. -/
def dfsDetectList (child : String → DfsState → DfsState) :
    List String → DfsState → DfsState
  | [], st => st
  | c :: cs, st => dfsDetectList child cs (child c st)

/-- The recursive `dfs` of `detectCircularDependencies`. -/
def dfsDetect (fcm : List (String × List String)) (functionName : String) :
    Nat → String → DfsState → DfsState
  | 0, _, st => st
  | Nat.succ fuel, current, st =>
      if st.path.contains current then
        let cycleStart := st.path.indexOf current
        let cycle := st.path.drop cycleStart ++ [current]
        if cycle.contains functionName && !cycleIsDuplicate st.cycles cycle then
          { st with cycles := st.cycles ++ [cycle] }
        else st
      else if st.visited.contains current then st
      else
        let st1 : DfsState :=
          { st with
              visited := st.visited ++ [current]
              path := st.path ++ [current] }
        let st2 :=
          dfsDetectList (fun c s => dfsDetect fcm functionName fuel c s)
            (lookupD fcm current []) st1
        { st2 with path := st2.path.dropLast }

/-- Fuel that dominates the DFS recursion depth: the path holds pairwise
distinct names drawn from the start points and the callee lists, so the
nesting depth never reaches this bound. -/
def detectFuel (fcm : List (String × List String))
    (startPoints : List String) : Nat :=
  fcm.foldl (fun a p => a + 1 + p.2.length) 0 + startPoints.length + 2

/-- `detectCircularDependencies`: run the DFS from the target and from each
of its direct callers, clearing `visited` and `path` between starts while
accumulating the recorded cycles. -/
def detectCircularDependencies (functionName : String)
    (fcm : List (String × List String))
    (callersMap : List (String × List String)) : List (List String) :=
  let startPoints := functionName :: lookupD callersMap functionName []
  (startPoints.foldl
    (fun st start =>
      dfsDetect fcm functionName (detectFuel fcm startPoints) start
        { cycles := st.cycles, visited := [], path := [] })
    { cycles := [], visited := [], path := [] }).cycles

/-! ### Top-level analyzers -/

/-- `ImpactResult` of `impact-analyzer.ts` (the `transitiveCallers` map is
the depth-keyed association list). -/
structure ImpactResult where
  functionName : String
  file : String
  line : Nat
  column : Nat
  directCallers : List String
  transitiveCallers : List (Nat × List String)
  totalAffected : Nat
  riskScore : Int
  riskLevel : String
  complexity : ComplexityMetrics
  circularDependencies : List (List String)
  suggestions : List SmartSuggestion
deriving Repr, DecidableEq

/-- The direct-caller list `analyzeImpact` reads off the project-wide
callers map. -/
def impactDirectCallers (defs : List FuncDef) (functionName : String) :
    List String :=
  lookupD (buildCallersMap (buildFunctionCallMap defs)) functionName []

/-- `analyzeImpact` of `impact-analyzer.ts`.  `sourceFileCount` is the
number of files the front-end scan found; `cyclomaticOfTarget` is the
front end's cyclomatic-complexity count for the target's body.  Throwing
is modelled as `Except.error` (so no partial result exists on failure). -/
def analyzeImpact (sourceFileCount : Nat) (defs : List FuncDef)
    (cyclomaticOfTarget : Nat) (functionName : String)
    (filePath : Option String) (projectRoot : String) (depth : Nat)
    (includeComplexity : Bool) : Except String ImpactResult :=
  if sourceFileCount == 0 then
    Except.error (NO_SOURCE_FILES projectRoot)
  else
    match findFunction defs functionName filePath with
    | [] =>
        Except.error (impactNotFoundMessage functionName
          (filePath.getD projectRoot))
    | target :: _ =>
        let fcm := buildFunctionCallMap defs
        let cm := buildCallersMap fcm
        let directCallers := impactDirectCallers defs functionName
        let transitive := findTransitiveCallers functionName cm depth
        let cycles := detectCircularDependencies functionName fcm cm
        let fanOut := (lookupD fcm functionName []).length
        let complexity :=
          if includeComplexity then
            calculateComplexity cyclomaticOfTarget directCallers.length fanOut
          else
            { fanIn := directCallers.length, fanOut := fanOut,
              cyclomaticComplexity := 0, isHotspot := false, hotspotScore := 0 }
        let allAffected :=
          dedupFirst (directCallers ++ (transitive.map (fun p => p.2)).flatten)
        let totalAffected := allAffected.length
        let riskScore :=
          calculateRiskScore directCallers.length totalAffected complexity
            cycles.length
        Except.ok
          { functionName := functionName
            file := target.filePath
            line := target.line
            column := target.column
            directCallers := directCallers
            transitiveCallers := transitive
            totalAffected := totalAffected
            riskScore := riskScore
            riskLevel := getRiskLevel riskScore
            complexity := complexity
            circularDependencies := cycles
            suggestions :=
              generateSuggestions functionName directCallers.length complexity
                cycles (lookupD fcm functionName []) }

/-- `analyzeTypeScriptCallGraph` of `typescript-analyzer.ts`: empty project
and function-not-found are fatal (`Except.error`), otherwise the call graph
for the first found definition is built. -/
def analyzeTypeScriptCallGraph (sourceFileCount : Nat) (defs : List FuncDef)
    (functionName : String) (filePath : Option String) (projectRoot : String)
    (depth : Nat) (direction : Direction) : Except String CallGraph :=
  if sourceFileCount == 0 then
    Except.error (NO_SOURCE_FILES projectRoot)
  else
    match findFunction defs functionName filePath with
    | [] =>
        Except.error (FUNCTION_NOT_FOUND functionName (filePath.getD projectRoot)
          sourceFileCount)
    | target :: _ => Except.ok (buildCallGraph defs target depth direction)

/-! ## Concrete call indexes used in scenario theorems -/

/-- A call site written as a plain identifier call `n()`. -/
def mkCall (n : String) : CallInfo :=
  { calleeName := n, locFile := "main.ts", locLine := 1, locColumn := 1,
    fullExpression := n }

/-- A function definition with the given plain identifier calls. -/
def mkDef (n : String) (cs : List String) : FuncDef :=
  { name := n, filePath := "main.ts", line := 1, column := 1,
    kind := "function", calls := cs.map mkCall }

/-- The linear chain `a → b → c` of the spec's scenario. -/
def chainIndex : List FuncDef :=
  [mkDef "a" ["b"], mkDef "b" ["c"], mkDef "c" []]

/-- An index on which deepening the callee traversal shrinks the node set:
`a` calls `c1` then `x`; `c1 → c2 → x`; `x → y1 → y2`.  At depth 3 the
first path reaches `x` at the depth limit without marking it visited, so
the direct edge `a → x` still explores `x` two levels deep; at depth 4 the
first path marks `x` visited one level short, and the direct edge is
pruned. -/
def deepPruneIndex : List FuncDef :=
  [mkDef "a" ["c1", "x"], mkDef "c1" ["c2"], mkDef "c2" ["x"],
   mkDef "x" ["y1"], mkDef "y1" ["y2"], mkDef "y2" []]

/-- A single self-recursive function `A`. -/
def selfIndex : List FuncDef := [mkDef "A" ["A"]]

/-! ## Claim statements that the code refutes -/

/-- Claim C2's caller-count band, as the spec states it: a caller count in
`[10, 15)` yields a severity-3 suggestion (here specialised to inputs where
no other rule fires, so the claim forces a severity-3 entry to exist). -/
def claimC2CallerBand : Prop :=
  ∀ (fn : String) (c : Nat) (m : ComplexityMetrics),
    10 ≤ c → c < 15 → m.isHotspot = false → m.cyclomaticComplexity < 10 →
      ∃ s ∈ generateSuggestions fn c m [] [], s.severity = 3

/-- Claim C3 as stated: when the target is absent, both analyzers fail with
the message that reports the searched scope and the file count. -/
def claimC3Statement : Prop :=
  ∀ (n : Nat) (defs : List FuncDef) (cyclo : Nat) (fn : String)
    (fp : Option String) (root : String) (depth : Nat) (dir : Direction)
    (inclC : Bool),
    0 < n → findFunction defs fn fp = [] →
      analyzeTypeScriptCallGraph n defs fn fp root depth dir =
        Except.error (FUNCTION_NOT_FOUND fn (fp.getD root) n) ∧
      analyzeImpact n defs cyclo fn fp root depth inclC =
        Except.error (FUNCTION_NOT_FOUND fn (fp.getD root) n)

/-- Claim C8 as stated: for every call index, target, direction and depth
`d` with `1 ≤ d` and `d + 1 ≤ 10`, the node set can only grow from depth
`d` to depth `d + 1`. -/
def claimC8Statement : Prop :=
  ∀ (defs : List FuncDef) (target : FuncDef) (dir : Direction) (d : Nat),
    1 ≤ d → d + 1 ≤ 10 →
      (buildCallGraph defs target d dir).nodes.length ≤
        (buildCallGraph defs target (d + 1) dir).nodes.length

/-! ## Helper lemmas -/

/-- Inserting into the severity-sorted list is a permutation step. -/
theorem insertBySeverityDesc_perm (s : SmartSuggestion)
    (l : List SmartSuggestion) : (insertBySeverityDesc s l).Perm (s :: l) := by
  induction l with
  | nil => simp [insertBySeverityDesc]
  | cons t ts ih =>
      simp only [insertBySeverityDesc]
      split
      · exact List.Perm.refl _
      · exact (ih.cons t).trans (List.Perm.swap s t ts)

/-- The severity sort permutes its input. -/
theorem sortBySeverityDesc_perm (l : List SmartSuggestion) :
    (sortBySeverityDesc l).Perm l := by
  induction l with
  | nil => simp [sortBySeverityDesc]
  | cons a l ih =>
      have : sortBySeverityDesc (a :: l) =
          insertBySeverityDesc a (sortBySeverityDesc l) := rfl
      rw [this]
      exact (insertBySeverityDesc_perm a (sortBySeverityDesc l)).trans (ih.cons a)

/-- The `(type, severity)` profile that `generateSuggestions` actually
produces, band by band: caller count ≥ 10 gives a severity-4 warning and
`[5, 10)` a severity-2 info; one severity-5 warning per cycle; fan-out
≥ 15 gives a severity-3 refactor and `[10, 15)` a severity-2 info; a
hotspot gives a severity-5 warning; cyclomatic complexity ≥ 15 gives a
severity-3 refactor and `[10, 15)` a severity-2 info. -/
def suggestionProfileAmended (callerCount : Nat)
    (complexity : ComplexityMetrics) (cycleCount fanOut : Nat) :
    List (SuggestionType × Nat) :=
  (if 10 ≤ callerCount then [(SuggestionType.warning, 4)]
   else if 5 ≤ callerCount then [(SuggestionType.info, 2)] else []) ++
  List.replicate cycleCount (SuggestionType.warning, 5) ++
  (if 15 ≤ fanOut then [(SuggestionType.refactor, 3)]
   else if 10 ≤ fanOut then [(SuggestionType.info, 2)] else []) ++
  (if complexity.isHotspot then [(SuggestionType.warning, 5)] else []) ++
  (if 15 ≤ complexity.cyclomaticComplexity then [(SuggestionType.refactor, 3)]
   else if 10 ≤ complexity.cyclomaticComplexity then
     [(SuggestionType.info, 2)]
   else [])

/-! ## Association-list lemmas -/

/-- `mapSet` on a present key preserves the key list. -/
theorem keys_mapSet_of_contains {β : Type} (m : List (String × β))
    (k : String) (v : β) (h : (keys m).contains k = true) :
    keys (mapSet m k v) = keys m := by
  induction m with
  | nil => simp [keys] at h
  | cons p ps ih =>
      by_cases hp : (p.1 == k) = true
      · simp [mapSet, hp, keys]
      · have h' : (keys ps).contains k = true := by
          simp only [keys, List.map_cons, List.contains_cons] at h
          rcases Bool.or_eq_true_iff.mp h with h1 | h1
          · exact absurd (by rw [beq_iff_eq] at h1 ⊢; exact h1.symm) hp
          · exact h1
        simp only [Bool.not_eq_true] at hp
        simp only [mapSet, hp, Bool.false_eq_true, if_false, keys,
          List.map_cons]
        simpa [keys] using ih h'

/-- `mapSet` on an absent key appends the new key at the end. -/
theorem keys_mapSet_not_contains {β : Type} (m : List (String × β))
    (k : String) (v : β) (h : (keys m).contains k = false) :
    keys (mapSet m k v) = keys m ++ [k] := by
  induction m with
  | nil => simp [mapSet, keys]
  | cons p ps ih =>
      simp only [keys, List.map_cons, List.contains_cons,
        Bool.or_eq_false_iff] at h
      have hp : (p.1 == k) = false := by
        rw [beq_eq_false_iff_ne]
        rw [beq_eq_false_iff_ne] at h
        exact fun he => h.1 he.symm
      simp only [mapSet, hp, Bool.false_eq_true, if_false, keys,
        List.map_cons, List.cons_append]
      congr 1
      exact ih (by simpa [keys] using h.2)

/-- `mapSet` always makes `k` look up to `v`. -/
theorem lookup_mapSet_self {β : Type} (m : List (String × β)) (k : String)
    (v : β) : List.lookup k (mapSet m k v) = some v := by
  induction m with
  | nil => simp [mapSet, List.lookup]
  | cons p ps ih =>
      obtain ⟨a, b⟩ := p
      by_cases hp : (a == k) = true
      · have hk : (k == a) = true := by
          rw [beq_iff_eq] at hp ⊢
          exact hp.symm
        simp [mapSet, hp, List.lookup, hk]
      · simp only [Bool.not_eq_true] at hp
        have hk : (k == a) = false := by
          rw [beq_eq_false_iff_ne] at hp ⊢
          exact fun he => hp he.symm
        simp [mapSet, hp, List.lookup, hk, ih]

/-- `lookupD` form of `lookup_mapSet_self`. -/
theorem lookupD_mapSet_self {β : Type} (m : List (String × β)) (k : String)
    (v d : β) : lookupD (mapSet m k v) k d = v := by
  simp [lookupD, lookup_mapSet_self]

/-- `mapSet` at one key never changes lookups at another. -/
theorem lookup_mapSet_ne {β : Type} (m : List (String × β)) (k k' : String)
    (v : β) (h : (k' == k) = false) :
    List.lookup k' (mapSet m k v) = List.lookup k' m := by
  induction m with
  | nil => simp [mapSet, List.lookup, h]
  | cons p ps ih =>
      obtain ⟨a, b⟩ := p
      by_cases hp : (a == k) = true
      · have hk : (k' == a) = false := by
          rw [beq_iff_eq] at hp
          rw [beq_eq_false_iff_ne] at h ⊢
          rw [hp]
          exact h
        simp [mapSet, hp, List.lookup, hk]
      · simp only [Bool.not_eq_true] at hp
        by_cases hk : (k' == a) = true
        · simp [mapSet, hp, List.lookup, hk]
        · simp only [Bool.not_eq_true] at hk
          simp [mapSet, hp, List.lookup, hk, ih]

/-- Looking up a key absent from the left part of an append skips it. -/
theorem lookup_append_right {β : Type} (m l2 : List (String × β)) (k : String)
    (h : (keys m).contains k = false) :
    List.lookup k (m ++ l2) = List.lookup k l2 := by
  induction m with
  | nil => rfl
  | cons p ps ih =>
      obtain ⟨a, b⟩ := p
      simp only [keys, List.map_cons, List.contains_cons,
        Bool.or_eq_false_iff] at h
      simp only [List.cons_append, List.lookup, h.1]
      exact ih (by simpa [keys] using h.2)

/-- A successful lookup survives appending on the right. -/
theorem lookup_append_some {β : Type} (m l2 : List (String × β)) (k : String)
    (b : β) (h : List.lookup k m = some b) :
    List.lookup k (m ++ l2) = some b := by
  induction m with
  | nil => simp [List.lookup] at h
  | cons p ps ih =>
      obtain ⟨a, c⟩ := p
      by_cases hk : (k == a) = true
      · simp only [List.lookup, hk] at h
        simp only [List.cons_append, List.lookup, hk]
        exact h
      · simp only [Bool.not_eq_true] at hk
        simp only [List.lookup, hk] at h
        simp only [List.cons_append, List.lookup, hk]
        exact ih h

/-- A successful lookup means the key is present. -/
theorem contains_of_lookup_some {β : Type} (m : List (String × β))
    (k : String) (b : β) (h : List.lookup k m = some b) :
    (keys m).contains k = true := by
  induction m with
  | nil => simp [List.lookup] at h
  | cons p ps ih =>
      obtain ⟨a, c⟩ := p
      simp only [keys, List.map_cons, List.contains_cons]
      by_cases hk : (k == a) = true
      · simp [hk]
      · simp only [Bool.not_eq_true] at hk
        simp only [List.lookup, hk] at h
        simp only [hk, Bool.false_or]
        exact ih h

/-! ## Reverse-map (callers map) lemmas -/

/-- Appending a single differently-keyed entry does not change a lookup. -/
theorem lookup_append_single_ne {β : Type} (m : List (String × β))
    (c c2 : String) (v : β) (hne : (c2 == c) = false) :
    List.lookup c2 (m ++ [(c, v)]) = List.lookup c2 m := by
  induction m with
  | nil => simp [List.lookup, hne]
  | cons p ps ih =>
      obtain ⟨a, b⟩ := p
      by_cases hk : (c2 == a) = true
      · simp [List.lookup, hk]
      · simp only [Bool.not_eq_true] at hk
        simp only [List.cons_append, List.lookup, hk]
        exact ih

/-- Ensuring an entry does not change what the key looks up to. -/
theorem lookupD_addCallerEnsured (m : List (String × List String))
    (c : String) : lookupD (addCallerEnsured m c) c [] = lookupD m c [] := by
  unfold addCallerEnsured
  by_cases hc : (keys m).contains c = true
  · rw [if_pos hc]
  · rw [if_neg hc]
    unfold lookupD
    rw [lookup_append_right m [(c, [])] c (by simpa using hc)]
    have hnone : List.lookup c m = none := by
      cases hlk : List.lookup c m with
      | none => rfl
      | some l => exact absurd (contains_of_lookup_some m c l hlk) hc
    simp [List.lookup, hnone]

/-- The entry of `addCaller` at the modified key. -/
theorem lookupD_addCaller_self (m : List (String × List String))
    (c f : String) :
    lookupD (addCaller m c f) c [] =
      (if (lookupD m c []).contains f then lookupD m c []
       else lookupD m c [] ++ [f]) := by
  unfold addCaller
  rw [lookupD_addCallerEnsured]
  by_cases hf : (lookupD m c []).contains f = true
  · rw [if_pos hf, if_pos hf, lookupD_addCallerEnsured]
  · rw [if_neg hf, if_neg hf, lookupD_mapSet_self]

/-- `addCaller` leaves every other key unchanged. -/
theorem lookupD_addCaller_ne (m : List (String × List String))
    (c f c2 : String) (d : List String) (hne : (c2 == c) = false) :
    lookupD (addCaller m c f) c2 d = lookupD m c2 d := by
  have hens : List.lookup c2 (addCallerEnsured m c) = List.lookup c2 m := by
    unfold addCallerEnsured
    by_cases hc : (keys m).contains c = true
    · rw [if_pos hc]
    · rw [if_neg hc]
      exact lookup_append_single_ne m c c2 [] hne
  unfold addCaller
  by_cases hf : (lookupD (addCallerEnsured m c) c []).contains f = true
  · rw [if_pos hf]
    unfold lookupD
    rw [hens]
  · rw [if_neg hf]
    unfold lookupD
    rw [lookup_mapSet_ne _ _ _ _ hne, hens]

/-- `addCaller` makes `funcName` a member of the entry for `callee`. -/
theorem addCaller_mem_self (m : List (String × List String))
    (c f : String) : f ∈ lookupD (addCaller m c f) c [] := by
  rw [lookupD_addCaller_self]
  by_cases hf : (lookupD m c []).contains f = true
  · rw [if_pos hf]
    exact List.elem_iff.mp hf
  · rw [if_neg hf]
    simp

/-- `addCaller` preserves membership in every entry. -/
theorem addCaller_mem_preserve (m : List (String × List String))
    (c' f' c f : String) (h : f ∈ lookupD m c []) :
    f ∈ lookupD (addCaller m c' f') c [] := by
  by_cases hcc : (c == c') = true
  · have hceq : c = c' := beq_iff_eq.mp hcc
    subst hceq
    rw [lookupD_addCaller_self]
    by_cases hf : (lookupD m c []).contains f' = true
    · rw [if_pos hf]
      exact h
    · rw [if_neg hf]
      exact List.mem_append_left _ h
  · simp only [Bool.not_eq_true] at hcc
    rw [lookupD_addCaller_ne m c' f' c [] hcc]
    exact h

/-- Membership in an entry survives the inner `addCaller` fold. -/
theorem addCaller_fold_preserve (fn : String) (cs : List String)
    (A f : String) :
    ∀ m : List (String × List String), f ∈ lookupD m A [] →
      f ∈ lookupD (cs.foldl (fun m2 callee => addCaller m2 callee fn) m) A [] := by
  induction cs with
  | nil => intro m h; exact h
  | cons c rest ih =>
      intro m h
      exact ih _ (addCaller_mem_preserve m c fn A f h)

/-- Processing an entry `(A, cs)` with `A ∈ cs` records `A` as a caller of
`A`. -/
theorem addCaller_fold_establish (cs : List String) (A : String) :
    ∀ m : List (String × List String), A ∈ cs →
      A ∈ lookupD (cs.foldl (fun m2 callee => addCaller m2 callee A) m) A [] := by
  induction cs with
  | nil => intro m h; simp at h
  | cons c rest ih =>
      intro m h
      by_cases hc : c = A
      · subst hc
        simp only [List.foldl_cons]
        exact addCaller_fold_preserve c rest c c _ (addCaller_mem_self m c c)
      · have : A ∈ rest := by
          cases List.mem_cons.mp h with
          | inl h' => exact absurd h'.symm hc
          | inr h' => exact h'
        exact ih _ this

/-- Membership in an entry survives the outer `buildCallersMap` fold. -/
theorem buildCallersMap_fold_preserve (A f : String) :
    ∀ (entries : List (String × List String))
      (m : List (String × List String)), f ∈ lookupD m A [] →
      f ∈ lookupD (entries.foldl
        (fun m p => p.2.foldl (fun m2 callee => addCaller m2 callee p.1) m) m)
        A [] := by
  intro entries
  induction entries with
  | nil => intro m h; exact h
  | cons e rest ih =>
      intro m h
      exact ih _ (addCaller_fold_preserve e.1 e.2 A f m h)

/-- If the forward call map records `A` as calling `A`, the inverted
callers map records `A` as a caller of `A`. -/
theorem buildCallersMap_self_mem (fcm : List (String × List String))
    (A : String) (h : A ∈ lookupD fcm A []) :
    A ∈ lookupD (buildCallersMap fcm) A [] := by
  have hgen : ∀ (l : List (String × List String))
      (m : List (String × List String)), A ∈ lookupD l A [] →
      A ∈ lookupD (l.foldl
        (fun m p => p.2.foldl (fun m2 callee => addCaller m2 callee p.1) m) m)
        A [] := by
    intro l
    induction l with
    | nil => intro m hm; simp [lookupD, List.lookup] at hm
    | cons e rest ih =>
        intro m hm
        by_cases hk : (A == e.1) = true
        · have hAe : A = e.1 := beq_iff_eq.mp hk
          have hval : lookupD (e :: rest) A [] = e.2 := by
            simp [lookupD, List.lookup, hk]
          rw [hval] at hm
          have hstep : A ∈ lookupD
              (e.2.foldl (fun m2 callee => addCaller m2 callee e.1) m) A [] := by
            rw [← hAe]
            exact addCaller_fold_establish e.2 A m hm
          simpa using buildCallersMap_fold_preserve A A rest _ hstep
        · have hm' : A ∈ lookupD rest A [] := by
            simp only [Bool.not_eq_true] at hk
            simpa [lookupD, List.lookup, hk] using hm
          simpa using ih _ hm'
  exact hgen fcm [] h

/-! ## Traversal lemmas -/

/-- The callee traversal returns immediately on a visited function. -/
theorem buildCalleesGo_visited (defs : List FuncDef) (r : Nat) (isTop : Bool)
    (fname : String) (calls : List CallInfo) (st : BuildState)
    (h : st.visited.contains fname = true) :
    buildCalleesGo defs r isTop fname calls st = (st, []) := by
  cases r with
  | zero => rfl
  | succ r =>
      simp only [buildCalleesGo]
      rw [if_pos h]

/-- When every call of the current function either targets `A` itself or a
built-in, and `A` is already visited with `[A]` as the only node key, the
callee loop leaves the node-key list at `[A]` and the visited set
unchanged. -/
theorem buildCalleesLoop_self_inv (defs : List FuncDef) (r : Nat)
    (isTop : Bool) (A : String) :
    ∀ (calls : List CallInfo) (st : BuildState) (acc : List String),
      (∀ c ∈ calls, c.calleeName = A ∨
        isBuiltInFunction c.calleeName c.fullExpression = true) →
      st.visited.contains A = true →
      keys st.nodes = [A] →
      keys (buildCalleesLoop defs
          (fun n cs s => (buildCalleesGo defs r false n cs s).1)
          isTop A calls st acc).1.nodes = [A] := by
  intro calls
  induction calls with
  | nil =>
      intro st acc _ _ hk
      exact hk
  | cons c rest ih =>
      intro st acc hcalls hv hk
      by_cases hb : isBuiltInFunction c.calleeName c.fullExpression = true
      · simp only [buildCalleesLoop, hb, if_true]
        exact ih st acc
          (fun c' h' => hcalls c' (List.mem_cons_of_mem _ h')) hv hk
      · have hA : c.calleeName = A := by
          cases hcalls c (List.mem_cons_self c rest) with
          | inl h' => exact h'
          | inr h' => exact absurd h' hb
        simp only [Bool.not_eq_true] at hb
        simp only [buildCalleesLoop, hb, Bool.false_eq_true, if_false]
        have hcont : (keys st.nodes).contains c.calleeName = true := by
          rw [hk, hA]
          simp
        rw [if_pos hcont]
        split
        · exact ih _ _
            (fun c' h' => hcalls c' (List.mem_cons_of_mem _ h')) hv hk
        · simp only [buildCalleesGo_visited, hA, hv]
          refine ih _ _
            (fun c' h' => hcalls c' (List.mem_cons_of_mem _ h')) hv ?_
          rw [show c.calleeName = A from hA] at hcont
          show keys (mapSet st.nodes A _) = [A]
          rw [keys_mapSet_of_contains _ _ _ hcont]
          exact hk

/-- `mapSet` extends the key list by at most the new key. -/
theorem keys_mapSet_subset {β : Type} (m : List (String × β)) (k : String)
    (v : β) : keys (mapSet m k v) ⊆ keys m ++ [k] := by
  by_cases hc : (keys m).contains k = true
  · rw [keys_mapSet_of_contains m k v hc]
    exact List.subset_append_left _ _
  · simp only [Bool.not_eq_true] at hc
    rw [keys_mapSet_not_contains m k v hc]
    exact List.Subset.refl _

/-- The key list is a prefix of the key list after `mapSet`. -/
theorem keys_prefix_mapSet {β : Type} (m : List (String × β)) (k : String)
    (v : β) : keys m <+: keys (mapSet m k v) := by
  by_cases hc : (keys m).contains k = true
  · rw [keys_mapSet_of_contains m k v hc]
  · simp only [Bool.not_eq_true] at hc
    rw [keys_mapSet_not_contains m k v hc]
    exact List.prefix_append _ _

/-- `mapSet` preserves distinctness of keys. -/
theorem keys_mapSet_nodup {β : Type} (m : List (String × β)) (k : String)
    (v : β) (h : (keys m).Nodup) : (keys (mapSet m k v)).Nodup := by
  by_cases hc : (keys m).contains k = true
  · rw [keys_mapSet_of_contains m k v hc]
    exact h
  · simp only [Bool.not_eq_true] at hc
    rw [keys_mapSet_not_contains m k v hc]
    have hk : k ∉ keys m := by
      intro hmem
      exact absurd hmem (by simpa using hc)
    simp [List.nodup_append, h, hk]

/-- The node-key list of the state only grows through the callee loop. -/
theorem buildCalleesLoop_keys_grow (defs : List FuncDef)
    (child : String → List CallInfo → BuildState → BuildState)
    (hchild : ∀ n cs s, keys s.nodes <+: keys (child n cs s).nodes)
    (isTop : Bool) (fname : String) :
    ∀ (calls : List CallInfo) (st : BuildState) (acc : List String),
      keys st.nodes <+:
        keys (buildCalleesLoop defs child isTop fname calls st acc).1.nodes := by
  intro calls
  induction calls with
  | nil =>
      intro st acc
      exact List.prefix_refl _
  | cons c rest ih =>
      intro st acc
      by_cases hb : isBuiltInFunction c.calleeName c.fullExpression = true
      · simp only [buildCalleesLoop, hb, if_true]
        exact ih st acc
      · simp only [Bool.not_eq_true] at hb
        simp only [buildCalleesLoop, hb, Bool.false_eq_true, if_false]
        have hst2 : keys st.nodes <+:
            keys (if (keys st.nodes).contains c.calleeName then
              ({ st with edges := st.edges ++
                [⟨fname, c.calleeName, c.locFile, c.locLine⟩] } : BuildState)
            else { st with
              edges := st.edges ++
                [⟨fname, c.calleeName, c.locFile, c.locLine⟩]
              nodes := st.nodes ++ [(c.calleeName, nodeOfCall c)] }).nodes := by
          by_cases hc : (keys st.nodes).contains c.calleeName = true
          · rw [if_pos hc]
          · rw [if_neg hc]
            simp only [keys, List.map_append]
            exact List.prefix_append _ _
        split
        · exact hst2.trans (ih _ _)
        · rename_i d2 tail hfind
          refine hst2.trans ?_
          refine (keys_prefix_mapSet _ c.calleeName (nodeOfDef d2)).trans ?_
          refine List.IsPrefix.trans ?_ (ih _ _)
          exact hchild c.calleeName d2.calls ⟨_, _, _⟩

/-- The node-key list of the state only grows through the callee
traversal. -/
theorem buildCalleesGo_keys_grow (defs : List FuncDef) :
    ∀ (r : Nat) (isTop : Bool) (fname : String) (calls : List CallInfo)
      (st : BuildState),
      keys st.nodes <+:
        keys (buildCalleesGo defs r isTop fname calls st).1.nodes := by
  intro r
  induction r with
  | zero =>
      intro isTop fname calls st
      exact List.prefix_refl _
  | succ r ih =>
      intro isTop fname calls st
      simp only [buildCalleesGo]
      by_cases hv : st.visited.contains fname = true
      · rw [if_pos hv]
      · rw [if_neg hv]
        have h1 := buildCalleesLoop_keys_grow defs _
          (fun n cs s => ih false n cs s) isTop fname calls
          { st with visited := st.visited ++ [fname] } []
        simpa using h1

/-- The node-key list of the state only grows through the caller loop. -/
theorem findCallersLoop_keys_grow (tname : String)
    (child : String → BuildState → List String → BuildState × List String)
    (hchild : ∀ n s dc, keys s.nodes <+: keys (child n s dc).1.nodes)
    (isDirect : Bool) (funcName : String) :
    ∀ (entries : List (String × FuncDef)) (st : BuildState)
      (dc : List String),
      keys st.nodes <+:
        keys (findCallersLoop tname child isDirect funcName entries st
          dc).1.nodes := by
  intro entries
  induction entries with
  | nil =>
      intro st dc
      exact List.prefix_refl _
  | cons e rest ih =>
      intro st dc
      obtain ⟨callerName, d⟩ := e
      by_cases hcond : ((rawCalleeNames d).contains funcName &&
          callerName != funcName) = true
      · simp only [findCallersLoop, hcond, if_true]
        have hst1 : keys st.nodes <+:
            keys (if (keys st.nodes).contains callerName then st
              else { st with
                nodes := st.nodes ++ [(callerName, nodeOfDef d)] }).nodes := by
          by_cases hc : (keys st.nodes).contains callerName = true
          · rw [if_pos hc]
          · rw [if_neg hc]
            simp only [keys, List.map_append]
            exact List.prefix_append _ _
        refine hst1.trans ?_
        refine (List.IsPrefix.trans ?_ (ih _ _))
        have hedges : ∀ s2 : BuildState,
            keys s2.nodes <+: keys (if s2.edges.any (fun e =>
                e.fromName == callerName && e.toName == funcName) then s2
              else { s2 with edges := s2.edges ++
                [⟨callerName, funcName, d.filePath, d.line⟩] }).nodes := by
          intro s2
          by_cases he : s2.edges.any (fun e =>
              e.fromName == callerName && e.toName == funcName) = true
          · rw [if_pos he]
          · rw [if_neg he]
        exact (hedges _).trans (hchild _ _ _)
      · simp only [Bool.not_eq_true] at hcond
        simp only [findCallersLoop, hcond, Bool.false_eq_true, if_false]
        exact ih st dc

/-- The node-key list of the state only grows through the caller
traversal. -/
theorem findCallersGo_keys_grow (fcm : List (String × FuncDef))
    (tname : String) :
    ∀ (r : Nat) (isDirect : Bool) (funcName : String) (st : BuildState)
      (dc : List String),
      keys st.nodes <+:
        keys (findCallersGo fcm tname r isDirect funcName st dc).1.nodes := by
  intro r
  induction r with
  | zero =>
      intro isDirect funcName st dc
      exact List.prefix_refl _
  | succ r ih =>
      intro isDirect funcName st dc
      simp only [findCallersGo]
      by_cases hv : st.visited.contains funcName = true
      · rw [if_pos hv]
      · rw [if_neg hv]
        have h1 := findCallersLoop_keys_grow tname _
          (fun n s dc2 => ih false n s dc2) isDirect funcName fcm
          { st with visited := st.visited ++ [funcName] } dc
        simpa using h1

/-- The non-built-in callee names of a call list, in order (the names whose
nodes the callee loop creates at any depth). -/
def nonBuiltinCalleeNames (calls : List CallInfo) : List String :=
  (calls.filter
    (fun c => !isBuiltInFunction c.calleeName c.fullExpression)).map
    (fun c => c.calleeName)

/-- The keys of the project-map entries that call `funcName` (other than
`funcName` itself) — the nodes the caller loop creates at any depth. -/
def matchingCallerKeys (funcName : String)
    (entries : List (String × FuncDef)) : List String :=
  (entries.filter (fun e =>
    (rawCalleeNames e.2).contains funcName && e.1 != funcName)).map
    (fun e => e.1)

/-- With a depth-exhausted child, the callee loop adds at most the
non-built-in callee names to the node keys. -/
theorem buildCalleesLoop_keys_upper_zero (defs : List FuncDef)
    (isTop : Bool) (fname : String) :
    ∀ (calls : List CallInfo) (st : BuildState) (acc : List String),
      keys (buildCalleesLoop defs
        (fun n cs s => (buildCalleesGo defs 0 false n cs s).1)
        isTop fname calls st acc).1.nodes ⊆
        keys st.nodes ++ nonBuiltinCalleeNames calls := by
  intro calls
  induction calls with
  | nil =>
      intro st acc
      exact List.subset_append_left _ _
  | cons c rest ih =>
      intro st acc
      by_cases hb : isBuiltInFunction c.calleeName c.fullExpression = true
      · simp only [buildCalleesLoop, hb, if_true]
        have hn : nonBuiltinCalleeNames (c :: rest) =
            nonBuiltinCalleeNames rest := by
          simp [nonBuiltinCalleeNames, hb]
        rw [hn]
        exact ih st acc
      · simp only [Bool.not_eq_true] at hb
        have hn : nonBuiltinCalleeNames (c :: rest) =
            c.calleeName :: nonBuiltinCalleeNames rest := by
          simp [nonBuiltinCalleeNames, hb]
        rw [hn]
        simp only [buildCalleesLoop, hb, Bool.false_eq_true, if_false]
        have hst2 : ∀ st4 : BuildState,
            keys st4.nodes ⊆ keys st.nodes ++ [c.calleeName] →
            ∀ x ∈ keys (buildCalleesLoop defs
              (fun n cs s => (buildCalleesGo defs 0 false n cs s).1)
              isTop fname rest st4
              (if isTop then acc ++ [c.calleeName] else acc)).1.nodes,
              x ∈ keys st.nodes ++ c.calleeName ::
                nonBuiltinCalleeNames rest := by
          intro st4 hsub x hx
          have := ih st4 (if isTop then acc ++ [c.calleeName] else acc) hx
          rcases List.mem_append.mp this with h1 | h1
          · rcases List.mem_append.mp (hsub h1) with h2 | h2
            · exact List.mem_append_left _ h2
            · refine List.mem_append_right _ ?_
              simp only [List.mem_singleton] at h2
              simp [h2]
          · exact List.mem_append_right _ (List.mem_cons_of_mem _ h1)
        split
        · refine hst2 _ ?_
          by_cases hc : (keys st.nodes).contains c.calleeName = true
          · rw [if_pos hc]
            exact List.subset_append_left _ _
          · rw [if_neg hc]
            simp only [keys, List.map_append]
            exact List.Subset.refl _
        · rename_i d2 tail hfind
          refine hst2 _ ?_
          intro x hx
          have hx2 := keys_mapSet_subset _ c.calleeName (nodeOfDef d2) hx
          rcases List.mem_append.mp hx2 with h1 | h1
          · by_cases hc : (keys st.nodes).contains c.calleeName = true
            · rw [if_pos hc] at h1
              exact List.mem_append_left _ h1
            · rw [if_neg hc] at h1
              simp only [keys, List.map_append] at h1
              rcases List.mem_append.mp h1 with h2 | h2
              · exact List.mem_append_left _ h2
              · refine List.mem_append_right _ ?_
                simpa [keys] using h2
          · exact List.mem_append_right _ h1

/-- With a prefix-preserving child, every non-built-in callee of the
processed calls ends up among the node keys. -/
theorem buildCalleesLoop_callee_mem (defs : List FuncDef)
    (child : String → List CallInfo → BuildState → BuildState)
    (hchild : ∀ n cs s, keys s.nodes <+: keys (child n cs s).nodes)
    (isTop : Bool) (fname : String) :
    ∀ (calls : List CallInfo) (st : BuildState) (acc : List String)
      (c : CallInfo), c ∈ calls →
      isBuiltInFunction c.calleeName c.fullExpression = false →
      c.calleeName ∈ keys (buildCalleesLoop defs child isTop fname calls st
        acc).1.nodes := by
  intro calls
  induction calls with
  | nil =>
      intro st acc c hc
      simp at hc
  | cons c0 rest ih =>
      intro st acc c hc hnb
      rcases List.mem_cons.mp hc with heq | hmem
      · subst heq
        simp only [buildCalleesLoop, hnb, Bool.false_eq_true, if_false]
        have hmem2 : ∀ st4 : BuildState,
            c.calleeName ∈ keys st4.nodes →
            c.calleeName ∈ keys (buildCalleesLoop defs child isTop fname rest
              st4 (if isTop then acc ++ [c.calleeName] else acc)).1.nodes :=
          fun st4 h =>
            (buildCalleesLoop_keys_grow defs child hchild isTop fname rest
              st4 _).subset h
        have hst2mem : c.calleeName ∈ keys
            (if (keys st.nodes).contains c.calleeName then
              ({ st with edges := st.edges ++
                [⟨fname, c.calleeName, c.locFile, c.locLine⟩] } : BuildState)
            else { st with
              edges := st.edges ++
                [⟨fname, c.calleeName, c.locFile, c.locLine⟩]
              nodes := st.nodes ++
                [(c.calleeName, nodeOfCall c)] }).nodes := by
          by_cases hcont : (keys st.nodes).contains c.calleeName = true
          · rw [if_pos hcont]
            simpa using hcont
          · rw [if_neg hcont]
            simp [keys]
        split
        · exact hmem2 _ hst2mem
        · rename_i d2 tail hfind
          refine hmem2 _ ?_
          refine (hchild c.calleeName d2.calls ⟨_, _, _⟩).subset ?_
          exact (keys_prefix_mapSet _ c.calleeName (nodeOfDef d2)).subset
            hst2mem
      · by_cases hb : isBuiltInFunction c0.calleeName c0.fullExpression = true
        · simp only [buildCalleesLoop, hb, if_true]
          exact ih st acc c hmem hnb
        · simp only [Bool.not_eq_true] at hb
          simp only [buildCalleesLoop, hb, Bool.false_eq_true, if_false]
          split
          · exact ih _ _ c hmem hnb
          · exact ih _ _ c hmem hnb

/-- With a depth-exhausted child, the callee loop keeps the node keys
distinct. -/
theorem buildCalleesLoop_keys_nodup_zero (defs : List FuncDef)
    (isTop : Bool) (fname : String) :
    ∀ (calls : List CallInfo) (st : BuildState) (acc : List String),
      (keys st.nodes).Nodup →
      (keys (buildCalleesLoop defs
        (fun n cs s => (buildCalleesGo defs 0 false n cs s).1)
        isTop fname calls st acc).1.nodes).Nodup := by
  intro calls
  induction calls with
  | nil =>
      intro st acc h
      exact h
  | cons c rest ih =>
      intro st acc h
      by_cases hb : isBuiltInFunction c.calleeName c.fullExpression = true
      · simp only [buildCalleesLoop, hb, if_true]
        exact ih st acc h
      · simp only [Bool.not_eq_true] at hb
        simp only [buildCalleesLoop, hb, Bool.false_eq_true, if_false]
        have hst2 : (keys
            (if (keys st.nodes).contains c.calleeName then
              ({ st with edges := st.edges ++
                [⟨fname, c.calleeName, c.locFile, c.locLine⟩] } : BuildState)
            else { st with
              edges := st.edges ++
                [⟨fname, c.calleeName, c.locFile, c.locLine⟩]
              nodes := st.nodes ++
                [(c.calleeName, nodeOfCall c)] }).nodes).Nodup := by
          by_cases hcont : (keys st.nodes).contains c.calleeName = true
          · rw [if_pos hcont]
            exact h
          · rw [if_neg hcont]
            have hk : c.calleeName ∉ keys st.nodes := by
              intro hmemk
              exact absurd hmemk (by simpa using hcont)
            have hnd : (keys st.nodes ++ [c.calleeName]).Nodup := by
              rw [List.nodup_append]
              exact ⟨h, List.nodup_singleton _, fun a ha hb2 => by
                simp only [List.mem_singleton] at hb2
                subst hb2
                exact hk ha⟩
            simpa [keys] using hnd
        split
        · exact ih _ _ hst2
        · rename_i d2 tail hfind
          refine ih _ _ ?_
          exact keys_mapSet_nodup _ c.calleeName (nodeOfDef d2) hst2
/-- With a depth-exhausted child, the caller loop adds at most the matching
entry keys to the node keys. -/
theorem findCallersLoop_keys_upper_zero (fcm : List (String × FuncDef))
    (tname : String) (isDirect : Bool) (funcName : String) :
    ∀ (entries : List (String × FuncDef)) (st : BuildState)
      (dc : List String),
      keys (findCallersLoop tname
        (fun n s dc2 => findCallersGo fcm tname 0 false n s dc2)
        isDirect funcName entries st dc).1.nodes ⊆
        keys st.nodes ++ matchingCallerKeys funcName entries := by
  intro entries
  induction entries with
  | nil =>
      intro st dc
      exact List.subset_append_left _ _
  | cons e rest ih =>
      intro st dc
      obtain ⟨callerName, d⟩ := e
      by_cases hcond : ((rawCalleeNames d).contains funcName &&
          callerName != funcName) = true
      · have hm : matchingCallerKeys funcName ((callerName, d) :: rest) =
            callerName :: matchingCallerKeys funcName rest := by
          have hc1 : funcName ∈ rawCalleeNames d ∧ ¬callerName = funcName := by
            simpa using hcond
          simp [matchingCallerKeys, List.filter_cons, hc1.1, hc1.2]
        rw [hm]
        simp only [findCallersLoop, hcond, if_true]
        intro x hx
        have hrest := ih _ _ hx
        rcases List.mem_append.mp hrest with h1 | h1
        · have hred : ∀ s1 : BuildState,
              x ∈ keys (if (s1.edges.any fun e =>
                  e.fromName == callerName && e.toName == funcName) = true
                then s1
                else { s1 with edges := s1.edges ++
                  [⟨callerName, funcName, d.filePath, d.line⟩] }).nodes →
              x ∈ keys s1.nodes := by
            intro s1 h2
            revert h2
            split
            · exact id
            · exact id
          have h1b := hred _ h1
          by_cases hc : (keys st.nodes).contains callerName = true
          · rw [if_pos hc] at h1b
            exact List.mem_append_left _ h1b
          · rw [if_neg hc] at h1b
            simp only [keys, List.map_append] at h1b
            rcases List.mem_append.mp h1b with h2 | h2
            · exact List.mem_append_left _ h2
            · refine List.mem_append_right _ ?_
              simp only [List.mem_cons]
              left
              simpa [keys] using h2
        · exact List.mem_append_right _ (List.mem_cons_of_mem _ h1)
      · have hm : matchingCallerKeys funcName ((callerName, d) :: rest) =
            matchingCallerKeys funcName rest := by
          have hc1 : ¬(funcName ∈ rawCalleeNames d ∧ ¬callerName = funcName) := by
            simpa using hcond
          simp [matchingCallerKeys, List.filter_cons, hc1]
        rw [hm]
        simp only [Bool.not_eq_true] at hcond
        simp only [findCallersLoop, hcond, Bool.false_eq_true, if_false]
        exact ih st dc

/-- With a prefix-preserving child, every matching entry key ends up among
the node keys. -/
theorem findCallersLoop_caller_mem (tname : String)
    (child : String → BuildState → List String → BuildState × List String)
    (hchild : ∀ n s dc, keys s.nodes <+: keys (child n s dc).1.nodes)
    (isDirect : Bool) (funcName : String) :
    ∀ (entries : List (String × FuncDef)) (st : BuildState)
      (dc : List String) (e : String × FuncDef), e ∈ entries →
      ((rawCalleeNames e.2).contains funcName && e.1 != funcName) = true →
      e.1 ∈ keys (findCallersLoop tname child isDirect funcName entries st
        dc).1.nodes := by
  intro entries
  induction entries with
  | nil =>
      intro st dc e he
      simp at he
  | cons e0 rest ih =>
      intro st dc e he hcond
      rcases List.mem_cons.mp he with heq | hmem
      · subst heq
        obtain ⟨callerName, d⟩ := e
        simp only [findCallersLoop, hcond, if_true]
        have hst1 : callerName ∈ keys
            (if (keys st.nodes).contains callerName then st
            else { st with
              nodes := st.nodes ++ [(callerName, nodeOfDef d)] }).nodes := by
          by_cases hc : (keys st.nodes).contains callerName = true
          · rw [if_pos hc]
            simpa using hc
          · rw [if_neg hc]
            simp [keys]
        have hst2 : ∀ s1 : BuildState, callerName ∈ keys s1.nodes →
            callerName ∈ keys (if (s1.edges.any fun e =>
                e.fromName == callerName && e.toName == funcName) = true
              then s1
              else { s1 with edges := s1.edges ++
                [⟨callerName, funcName, d.filePath, d.line⟩] }).nodes := by
          intro s1 h1
          split
          · exact h1
          · exact h1
        refine (findCallersLoop_keys_grow tname child hchild isDirect
          funcName rest _ _).subset ?_
        refine (hchild callerName _ _).subset ?_
        exact hst2 _ hst1
      · obtain ⟨callerName, d⟩ := e0
        by_cases hcond0 : ((rawCalleeNames d).contains funcName &&
            callerName != funcName) = true
        · simp only [findCallersLoop, hcond0, if_true]
          exact ih _ _ e hmem hcond
        · simp only [Bool.not_eq_true] at hcond0
          simp only [findCallersLoop, hcond0, Bool.false_eq_true, if_false]
          exact ih st dc e hmem hcond

/-- With a depth-exhausted child, the caller loop keeps the node keys
distinct. -/
theorem findCallersLoop_keys_nodup_zero (fcm : List (String × FuncDef))
    (tname : String) (isDirect : Bool) (funcName : String) :
    ∀ (entries : List (String × FuncDef)) (st : BuildState)
      (dc : List String),
      (keys st.nodes).Nodup →
      (keys (findCallersLoop tname
        (fun n s dc2 => findCallersGo fcm tname 0 false n s dc2)
        isDirect funcName entries st dc).1.nodes).Nodup := by
  intro entries
  induction entries with
  | nil =>
      intro st dc h
      exact h
  | cons e rest ih =>
      intro st dc h
      obtain ⟨callerName, d⟩ := e
      by_cases hcond : ((rawCalleeNames d).contains funcName &&
          callerName != funcName) = true
      · simp only [findCallersLoop, hcond, if_true]
        have hst1 : (keys (if (keys st.nodes).contains callerName then st
            else { st with
              nodes := st.nodes ++
                [(callerName, nodeOfDef d)] }).nodes).Nodup := by
          by_cases hc : (keys st.nodes).contains callerName = true
          · rw [if_pos hc]
            exact h
          · rw [if_neg hc]
            have hk : callerName ∉ keys st.nodes := by
              intro hmemk
              exact absurd hmemk (by simpa using hc)
            have hnd : (keys st.nodes ++ [callerName]).Nodup := by
              rw [List.nodup_append]
              exact ⟨h, List.nodup_singleton _, fun a ha hb2 => by
                simp only [List.mem_singleton] at hb2
                subst hb2
                exact hk ha⟩
            simpa [keys] using hnd
        have hst2 : ∀ s1 : BuildState, (keys s1.nodes).Nodup →
            (keys (if (s1.edges.any fun e =>
                e.fromName == callerName && e.toName == funcName) = true
              then s1
              else { s1 with edges := s1.edges ++
                [⟨callerName, funcName, d.filePath, d.line⟩] }).nodes).Nodup := by
          intro s1 h1
          split
          · exact h1
          · exact h1
        exact ih _ _ (hst2 _ hst1)
      · simp only [Bool.not_eq_true] at hcond
        simp only [findCallersLoop, hcond, Bool.false_eq_true, if_false]
        exact ih st dc h


/-- Unfolding of the callee traversal at positive depth on an unvisited
function. -/
theorem buildCalleesGo_succ_unfold (defs : List FuncDef) (r : Nat)
    (isTop : Bool) (fname : String) (calls : List CallInfo) (st : BuildState)
    (hv : st.visited.contains fname = false) :
    buildCalleesGo defs (r + 1) isTop fname calls st =
      buildCalleesLoop defs
        (fun n cs s => (buildCalleesGo defs r false n cs s).1)
        isTop fname calls { st with visited := st.visited ++ [fname] } [] := by
  simp only [buildCalleesGo]
  rw [if_neg (by intro hc; rw [hc] at hv; cases hv)]

/-- Unfolding of the caller traversal at positive depth on an unvisited
function. -/
theorem findCallersGo_succ_unfold (fcm : List (String × FuncDef))
    (tname : String) (r : Nat) (isDirect : Bool) (funcName : String)
    (st : BuildState) (dc : List String)
    (hv : st.visited.contains funcName = false) :
    findCallersGo fcm tname (r + 1) isDirect funcName st dc =
      findCallersLoop tname
        (fun n s dc2 => findCallersGo fcm tname r false n s dc2)
        isDirect funcName fcm
        { st with visited := st.visited ++ [funcName] } dc := by
  simp only [findCallersGo]
  rw [if_neg (by intro hc; rw [hc] at hv; cases hv)]

/-- The node keys after a depth-1 callee pass are contained in the node
keys after any deeper pass from the same state. -/
theorem buildCalleesGo_depth_one_subset (defs : List FuncDef)
    (isTop : Bool) (fname : String) (calls : List CallInfo) (st : BuildState)
    (hv : st.visited.contains fname = false) (d' : Nat) :
    keys (buildCalleesGo defs 1 isTop fname calls st).1.nodes ⊆
      keys (buildCalleesGo defs (d' + 1) isTop fname calls st).1.nodes := by
  rw [show (1 : Nat) = 0 + 1 from rfl,
    buildCalleesGo_succ_unfold defs 0 isTop fname calls st hv,
    buildCalleesGo_succ_unfold defs d' isTop fname calls st hv]
  intro x hx
  have hup := buildCalleesLoop_keys_upper_zero defs isTop fname calls
    { st with visited := st.visited ++ [fname] } [] hx
  rcases List.mem_append.mp hup with h1 | h1
  · exact (buildCalleesLoop_keys_grow defs _
      (fun n cs s => buildCalleesGo_keys_grow defs d' false n cs s)
      isTop fname calls _ []).subset h1
  · simp only [nonBuiltinCalleeNames, List.mem_map, List.mem_filter] at h1
    obtain ⟨c, ⟨hcmem, hcnb⟩, rfl⟩ := h1
    exact buildCalleesLoop_callee_mem defs _
      (fun n cs s => buildCalleesGo_keys_grow defs d' false n cs s)
      isTop fname calls _ [] c hcmem (by simpa using hcnb)

/-- The node keys after a depth-1 caller pass from a state are contained in
the node keys after any deeper pass from a state with at least those
nodes. -/
theorem findCallersGo_depth_one_subset (fcm : List (String × FuncDef))
    (tname : String) (isDirect : Bool) (funcName : String)
    (st1 stD : BuildState) (dc1 dcD : List String)
    (hv1 : st1.visited.contains funcName = false)
    (hvD : stD.visited.contains funcName = false)
    (hsub : keys st1.nodes ⊆ keys stD.nodes) (d' : Nat) :
    keys (findCallersGo fcm tname 1 isDirect funcName st1 dc1).1.nodes ⊆
      keys (findCallersGo fcm tname (d' + 1) isDirect funcName stD
        dcD).1.nodes := by
  rw [show (1 : Nat) = 0 + 1 from rfl,
    findCallersGo_succ_unfold fcm tname 0 isDirect funcName st1 dc1 hv1,
    findCallersGo_succ_unfold fcm tname d' isDirect funcName stD dcD hvD]
  intro x hx
  have hup := findCallersLoop_keys_upper_zero fcm tname isDirect funcName fcm
    { st1 with visited := st1.visited ++ [funcName] } dc1 hx
  rcases List.mem_append.mp hup with h1 | h1
  · refine (findCallersLoop_keys_grow tname _
      (fun n s dc2 => findCallersGo_keys_grow fcm tname d' false n s dc2)
      isDirect funcName fcm _ dcD).subset ?_
    exact hsub h1
  · simp only [matchingCallerKeys, List.mem_map, List.mem_filter] at h1
    obtain ⟨e, ⟨hemem, hecond⟩, rfl⟩ := h1
    exact findCallersLoop_caller_mem tname _
      (fun n s dc2 => findCallersGo_keys_grow fcm tname d' false n s dc2)
      isDirect funcName fcm _ dcD e hemem (by simpa using hecond)

/-- The node keys after a depth-1 callee pass are distinct when they start
distinct. -/
theorem buildCalleesGo_one_nodup (defs : List FuncDef) (isTop : Bool)
    (fname : String) (calls : List CallInfo) (st : BuildState)
    (hv : st.visited.contains fname = false)
    (h : (keys st.nodes).Nodup) :
    (keys (buildCalleesGo defs 1 isTop fname calls st).1.nodes).Nodup := by
  rw [show (1 : Nat) = 0 + 1 from rfl,
    buildCalleesGo_succ_unfold defs 0 isTop fname calls st hv]
  exact buildCalleesLoop_keys_nodup_zero defs isTop fname calls _ [] h

/-- The node keys after a depth-1 caller pass are distinct when they start
distinct. -/
theorem findCallersGo_one_nodup (fcm : List (String × FuncDef))
    (tname : String) (isDirect : Bool) (funcName : String) (st : BuildState)
    (dc : List String) (hv : st.visited.contains funcName = false)
    (h : (keys st.nodes).Nodup) :
    (keys (findCallersGo fcm tname 1 isDirect funcName st
      dc).1.nodes).Nodup := by
  rw [show (1 : Nat) = 0 + 1 from rfl,
    findCallersGo_succ_unfold fcm tname 0 isDirect funcName st dc hv]
  exact findCallersLoop_keys_nodup_zero fcm tname isDirect funcName fcm _ dc h

/-- Distinct keys and key containment bound the node-map length. -/
theorem nodes_length_le_of_keys_subset
    (n1 nd : List (String × FunctionNode))
    (hnodup : (keys n1).Nodup) (hsub : keys n1 ⊆ keys nd) :
    n1.length ≤ nd.length := by
  have h1 : n1.length = (keys n1).length := by simp [keys]
  have h2 : (keys nd).length = nd.length := by simp [keys]
  rw [h1, ← h2]
  calc (keys n1).length = (keys n1).toFinset.card :=
        (List.toFinset_card_of_nodup hnodup).symm
    _ ≤ (keys nd).toFinset.card := Finset.card_le_card (fun x hx => by
        rw [List.mem_toFinset] at hx ⊢
        exact hsub hx)
    _ ≤ (keys nd).length := (keys nd).toFinset_card_le

/-- Elements accumulated by the caller loop never equal the target, given
a child traversal with the same property. -/
theorem findCallersLoop_dc_ne (tname : String)
    (child : String → BuildState → List String → BuildState × List String)
    (hchild : ∀ n s dc2, (∀ x ∈ dc2, x ≠ tname) →
      ∀ x ∈ (child n s dc2).2, x ≠ tname)
    (isDirect : Bool) (funcName : String) :
    ∀ (entries : List (String × FuncDef)) (st : BuildState)
      (dc : List String), (∀ x ∈ dc, x ≠ tname) →
      ∀ x ∈ (findCallersLoop tname child isDirect funcName entries st
        dc).2, x ≠ tname := by
  intro entries
  induction entries with
  | nil =>
      intro st dc h
      exact h
  | cons e rest ih =>
      intro st dc h
      obtain ⟨callerName, d⟩ := e
      by_cases hcond : ((rawCalleeNames d).contains funcName &&
          callerName != funcName) = true
      · have hne : callerName ≠ funcName := by
          have := (Bool.and_eq_true _ _).mp hcond
          exact bne_iff_ne.mp this.2
        have hdc1 : ∀ x ∈ (if isDirect && funcName == tname then
            dc ++ [callerName] else dc), x ≠ tname := by
          by_cases hdir : (isDirect && funcName == tname) = true
          · rw [if_pos hdir]
            intro x hx
            cases List.mem_append.mp hx with
            | inl hx' => exact h x hx'
            | inr hx' =>
                have hxc : x = callerName := by simpa using hx'
                have hft : funcName = tname :=
                  beq_iff_eq.mp ((Bool.and_eq_true _ _).mp hdir).2
                rw [hxc]
                rw [← hft]
                exact hne
          · rw [if_neg hdir]
            exact h
        simp only [findCallersLoop, hcond, if_true]
        exact ih _ _ (hchild _ _ _ hdc1)
      · simp only [Bool.not_eq_true] at hcond
        simp only [findCallersLoop, hcond, Bool.false_eq_true, if_false]
        exact ih st dc h

/-- The direct-caller list produced by the backward traversal never
contains the target. -/
theorem findCallersGo_dc_ne (fcm : List (String × FuncDef)) (tname : String) :
    ∀ (r : Nat) (isDirect : Bool) (funcName : String) (st : BuildState)
      (dc : List String), (∀ x ∈ dc, x ≠ tname) →
      ∀ x ∈ (findCallersGo fcm tname r isDirect funcName st dc).2,
        x ≠ tname := by
  intro r
  induction r with
  | zero =>
      intro isDirect funcName st dc h
      exact h
  | succ r ih =>
      intro isDirect funcName st dc h
      simp only [findCallersGo]
      by_cases hv : st.visited.contains funcName = true
      · rw [if_pos hv]
        exact h
      · rw [if_neg hv]
        exact findCallersLoop_dc_ne tname _
          (fun n s dc2 h2 => ih false n s dc2 h2) isDirect funcName fcm _ dc h

/-! ## Cycle-detector invariants -/

/-- The shape of every recorded cycle: a repetition-closed path, i.e. a
duplicate-free list followed by a repeat of its head. -/
def CycShape (c : List String) : Prop :=
  ∃ a l, c = a :: l ++ [a] ∧ (a :: l).Nodup

/-- The invariant the cycle-detection DFS maintains: the current path is
duplicate-free, every recorded cycle contains the target and is shaped as
a closed path, and no two recorded cycles have the same name set. -/
def DetectInv (target : String) (st : DfsState) : Prop :=
  st.path.Nodup ∧
  (∀ c ∈ st.cycles, target ∈ c ∧ CycShape c) ∧
  st.cycles.Pairwise (fun c1 c2 => c1.toFinset ≠ c2.toFinset)

/-- A closed path of `n + 1` distinct names has `n + 2` entries but only
`n + 1` distinct names. -/
theorem cycShape_length (c : List String) (h : CycShape c) :
    c.length = c.toFinset.card + 1 := by
  obtain ⟨a, l, rfl, hnd⟩ := h
  have hfin : (a :: l ++ [a]).toFinset = (a :: l).toFinset := by
    simp only [List.cons_append, List.toFinset_cons, List.toFinset_append,
      List.toFinset_cons, List.toFinset_nil]
    ext x
    simp
    tauto
  rw [hfin, List.toFinset_card_of_nodup hnd]
  simp

/-- Two shaped cycles with the same name set make the duplicate check
fire. -/
theorem cycle_dup_of_same_finset (cycles : List (List String))
    (cycle prev : List String) (hprev : prev ∈ cycles) (hps : CycShape prev)
    (hcs : CycShape cycle) (heq : prev.toFinset = cycle.toFinset) :
    cycleIsDuplicate cycles cycle = true := by
  unfold cycleIsDuplicate
  rw [List.any_eq_true]
  refine ⟨prev, hprev, ?_⟩
  rw [Bool.and_eq_true]
  constructor
  · have h1 := cycShape_length prev hps
    have h2 := cycShape_length cycle hcs
    rw [heq] at h1
    rw [beq_iff_eq]
    omega
  · rw [List.all_eq_true]
    intro f hf
    have hf2 : f ∈ prev.toFinset := List.mem_toFinset.mpr hf
    rw [heq] at hf2
    exact List.elem_iff.mpr (List.mem_toFinset.mp hf2)

/-- Any state predicate preserved by the child DFS is preserved by the
callee loop of the DFS. -/
theorem dfsDetectList_pres (P : DfsState → Prop)
    (child : String → DfsState → DfsState)
    (hchild : ∀ c s, P s → P (child c s)) :
    ∀ (cs : List String) (st : DfsState), P st →
      P (dfsDetectList child cs st) := by
  intro cs
  induction cs with
  | nil =>
      intro st h
      exact h
  | cons c cs ih =>
      intro st h
      exact ih _ (hchild c st h)

/-- The cycle-detection DFS preserves the detector invariant. -/
theorem dfsDetect_inv (fcm : List (String × List String)) (fn : String) :
    ∀ (fuel : Nat) (cur : String) (st : DfsState),
      DetectInv fn st → DetectInv fn (dfsDetect fcm fn fuel cur st) := by
  intro fuel
  induction fuel with
  | zero =>
      intro cur st h
      exact h
  | succ fuel ih =>
      intro cur st h
      obtain ⟨hpath, hcyc, hpw⟩ := h
      simp only [dfsDetect]
      by_cases hin : st.path.contains cur = true
      · rw [if_pos hin]
        by_cases hrec : ((st.path.drop (st.path.indexOf cur) ++
            [cur]).contains fn &&
            !cycleIsDuplicate st.cycles
              (st.path.drop (st.path.indexOf cur) ++ [cur])) = true
        · rw [if_pos hrec]
          obtain ⟨hfn, hnd⟩ := (Bool.and_eq_true _ _).mp hrec
          have hmemcur : cur ∈ st.path := by simpa using hin
          have hilt : st.path.indexOf cur < st.path.length :=
            List.indexOf_lt_length.mpr hmemcur
          have hdrop : st.path.drop (st.path.indexOf cur) =
              cur :: st.path.drop (st.path.indexOf cur + 1) := by
            rw [List.drop_eq_getElem_cons hilt, List.getElem_indexOf hilt]
          have hshape : CycShape (st.path.drop (st.path.indexOf cur) ++
              [cur]) := by
            refine ⟨cur, st.path.drop (st.path.indexOf cur + 1), ?_, ?_⟩
            · rw [hdrop]
            · rw [← hdrop]
              exact (List.drop_sublist _ _).nodup hpath
          refine ⟨hpath, ?_, ?_⟩
          · intro c hc
            rcases List.mem_append.mp hc with h1 | h1
            · exact hcyc c h1
            · simp only [List.mem_singleton] at h1
              subst h1
              exact ⟨by simpa using hfn, hshape⟩
          · rw [List.pairwise_append]
            refine ⟨hpw, List.pairwise_singleton _ _, ?_⟩
            intro c1 hc1 c2 hc2
            simp only [List.mem_singleton] at hc2
            subst hc2
            intro heq
            have hdup := cycle_dup_of_same_finset st.cycles _ c1 hc1
              (hcyc c1 hc1).2 hshape heq
            rw [hdup] at hnd
            simp at hnd
        · rw [if_neg hrec]
          exact ⟨hpath, hcyc, hpw⟩
      · rw [if_neg hin]
        by_cases hvis : st.visited.contains cur = true
        · rw [if_pos hvis]
          exact ⟨hpath, hcyc, hpw⟩
        · rw [if_neg hvis]
          have hnodup1 : (st.path ++ [cur]).Nodup := by
            rw [List.nodup_append]
            refine ⟨hpath, List.nodup_singleton _, fun x hx hx2 => ?_⟩
            simp only [List.mem_singleton] at hx2
            subst hx2
            exact absurd hx (by simpa using hin)
          have hinv2 := dfsDetectList_pres (DetectInv fn) _
            (fun c s hs => ih c s hs) (lookupD fcm cur [])
            ⟨st.cycles, st.visited ++ [cur], st.path ++ [cur]⟩
            ⟨hnodup1, hcyc, hpw⟩
          obtain ⟨hp2, hc2, hw2⟩ := hinv2
          exact ⟨(List.dropLast_sublist _).nodup hp2, hc2, hw2⟩

/-! ## Claim theorems -/

/-- C2 (counterexample): the spec's caller-count bands do not match the
code: at caller count 12 (in `[10, 15)`, all other rules quiet) the claim
requires a severity-3 suggestion, but `generateSuggestions` emits a single
severity-4 warning for every caller count ≥ 10. -/
theorem claim_C2_counterexample : ¬ claimC2CallerBand := by
  intro h
  have h12 := h "f" 12 ⟨0, 0, 1, false, 0⟩ (by decide) (by decide) rfl
    (by decide)
  revert h12
  decide

/-- C2 (amended): the suggestion generator used by `analyzeImpact` emits,
up to the final severity sort, exactly the band profile of the code:
caller count ≥ 10 severity 4 (warning), `[5, 10)` severity 2 (info); one
severity-5 warning per detected cycle; fan-out ≥ 15 severity 3 (refactor),
`[10, 15)` severity 2 (info); hotspot severity 5 (warning); cyclomatic
complexity ≥ 15 severity 3 (refactor), else ≥ 10 severity 2 (info). -/
theorem claim_C2_amended_suggestion_bands (fn : String) (callerCount : Nat)
    (m : ComplexityMetrics) (circularDeps : List (List String))
    (callees : List String) :
    ((generateSuggestions fn callerCount m circularDeps callees).map
        (fun s => (s.type, s.severity))).Perm
      (suggestionProfileAmended callerCount m circularDeps.length
        callees.length) := by
  have hperm :=
    (sortBySeverityDesc_perm
      (generateSuggestionsRaw fn callerCount m circularDeps callees)).map
      (fun s => (s.type, s.severity))
  refine hperm.trans ?_
  have hraw : (generateSuggestionsRaw fn callerCount m circularDeps
      callees).map (fun s => (s.type, s.severity)) =
      suggestionProfileAmended callerCount m circularDeps.length
        callees.length := by
    simp only [generateSuggestionsRaw, suggestionProfileAmended,
      List.map_append,
      apply_ite (List.map (fun s : SmartSuggestion => (s.type, s.severity))),
      List.map_map, Function.comp_def, List.map_cons, List.map_nil]
    simp [List.map_const']
  rw [hraw]

/-- C3 (counterexample): `analyzeImpact` does not report the searched file
count: with 2 source files and target `foo` missing, its error message is
`Function "foo" not found in /proj`, not the `FUNCTION_NOT_FOUND` format
with `Searched 2 files.`. -/
theorem claim_C3_counterexample : ¬ claimC3Statement := by
  intro h
  have h2 := (h 2 [] 1 "foo" none "/proj" 3 Direction.both true (by decide)
    rfl).2
  rw [show analyzeImpact 2 [] 1 "foo" none "/proj" 3 true =
      Except.error (impactNotFoundMessage "foo" "/proj") from rfl] at h2
  have hmsg := Except.error.inj h2
  exact absurd hmsg (by decide)

/-- C3 (amended): when the target is found in no scanned file, both
analyzers fail the whole query with an error and return no partial result;
`analyzeTypeScriptCallGraph` reports the searched scope and the file
count, while `analyzeImpact` reports only the searched scope. -/
theorem claim_C3_amended_not_found_errors (n : Nat) (defs : List FuncDef)
    (cyclo : Nat) (fn : String) (fp : Option String) (root : String)
    (depth : Nat) (dir : Direction) (inclC : Bool) (hn : 0 < n)
    (hfind : findFunction defs fn fp = []) :
    analyzeTypeScriptCallGraph n defs fn fp root depth dir =
      Except.error (FUNCTION_NOT_FOUND fn (fp.getD root) n) ∧
    analyzeImpact n defs cyclo fn fp root depth inclC =
      Except.error (impactNotFoundMessage fn (fp.getD root)) := by
  have hne : (n == 0) = false := by
    simp only [beq_eq_false_iff_ne, ne_eq]
    omega
  constructor
  · simp [analyzeTypeScriptCallGraph, hne, hfind]
  · simp [analyzeImpact, hne, hfind]

/-- Witness for C3 (amended): a concrete missing target. -/
theorem claim_C3_witness :
    analyzeTypeScriptCallGraph 2 [] "foo" none "/proj" 3 Direction.both =
      Except.error (FUNCTION_NOT_FOUND "foo" "/proj" 2) ∧
    analyzeImpact 2 [] 1 "foo" none "/proj" 3 true =
      Except.error (impactNotFoundMessage "foo" "/proj") :=
  claim_C3_amended_not_found_errors 2 [] 1 "foo" none "/proj" 3
    Direction.both true (by decide) rfl

/-- C8 (counterexample): node-count monotonicity in the depth bound fails:
on `deepPruneIndex` with target `a` and direction `callees`, depth 3
yields 6 nodes but depth 4 yields only 5, because at depth 4 the long path
marks `x` visited with little remaining budget and the direct edge `a → x`
is then pruned. -/
theorem claim_C8_counterexample : ¬ claimC8Statement := by
  intro h
  have h3 := h deepPruneIndex (mkDef "a" ["c1", "x"]) Direction.callees 3
    (by decide) (by decide)
  revert h3
  decide

/-- C8 (amended): for every call index, target, direction and depth
`d ≥ 1`, the node set built at depth 1 (the target with its direct callees
and/or direct callers) is contained in the node set built at depth `d`,
and hence `|nodes(d)| ≥ |nodes(1)|`; the stronger consecutive-depth
monotonicity `|nodes(d+1)| ≥ |nodes(d)|` fails (see the counterexample). -/
theorem claim_C8_amended_depth_one_nodes (defs : List FuncDef)
    (target : FuncDef) (dir : Direction) (d : Nat) (hd : 1 ≤ d) :
    (∀ x ∈ keys (buildCallGraph defs target 1 dir).nodes,
        x ∈ keys (buildCallGraph defs target d dir).nodes) ∧
    (buildCallGraph defs target 1 dir).nodes.length ≤
      (buildCallGraph defs target d dir).nodes.length := by
  obtain ⟨d', rfl⟩ : ∃ d', d = d' + 1 := ⟨d - 1, by omega⟩
  have hv0 : (([] : List String).contains target.name) = false := rfl
  have hnodup0 : (keys ([(target.name, nodeOfDef target)] :
      List (String × FunctionNode))).Nodup := by
    simp [keys]
  have hsub : keys (buildCallGraph defs target 1 dir).nodes ⊆
      keys (buildCallGraph defs target (d' + 1) dir).nodes := by
    simp only [buildCallGraph]
    by_cases h1 : (dir == Direction.callees || dir == Direction.both) = true <;>
      by_cases h2 : (dir == Direction.callers ||
        dir == Direction.both) = true
    · rw [if_pos h1, if_pos h1, if_pos h2, if_pos h2]
      refine findCallersGo_depth_one_subset (cliFunctionCallMap defs)
        target.name true target.name _ _ [] [] ?_ ?_ ?_ d'
      · rfl
      · rfl
      · exact buildCalleesGo_depth_one_subset defs true target.name
          target.calls _ hv0 d'
    · rw [if_pos h1, if_pos h1, if_neg h2, if_neg h2]
      exact buildCalleesGo_depth_one_subset defs true target.name
        target.calls _ hv0 d'
    · rw [if_neg h1, if_neg h1, if_pos h2, if_pos h2]
      refine findCallersGo_depth_one_subset (cliFunctionCallMap defs)
        target.name true target.name _ _ [] [] ?_ ?_ ?_ d'
      · rfl
      · rfl
      · exact List.Subset.refl _
    · rw [if_neg h1, if_neg h1, if_neg h2, if_neg h2]
      exact List.Subset.refl _
  have hnodup : (keys (buildCallGraph defs target 1 dir).nodes).Nodup := by
    simp only [buildCallGraph]
    by_cases h1 : (dir == Direction.callees || dir == Direction.both) = true <;>
      by_cases h2 : (dir == Direction.callers ||
        dir == Direction.both) = true
    · rw [if_pos h1, if_pos h2]
      exact findCallersGo_one_nodup (cliFunctionCallMap defs) target.name
        true target.name _ [] rfl
        (buildCalleesGo_one_nodup defs true target.name target.calls _ hv0
          hnodup0)
    · rw [if_pos h1, if_neg h2]
      exact buildCalleesGo_one_nodup defs true target.name target.calls _
        hv0 hnodup0
    · rw [if_neg h1, if_pos h2]
      exact findCallersGo_one_nodup (cliFunctionCallMap defs) target.name
        true target.name _ [] rfl hnodup0
    · rw [if_neg h1, if_neg h2]
      exact hnodup0
  exact ⟨fun x hx => hsub hx,
    nodes_length_le_of_keys_subset _ _ hnodup hsub⟩

/-- Witness for C8 (amended): the linear chain at depths 1 and 2. -/
theorem claim_C8_witness :
    (∀ x ∈ keys (buildCallGraph chainIndex (mkDef "a" ["b"]) 1
        Direction.both).nodes,
      x ∈ keys (buildCallGraph chainIndex (mkDef "a" ["b"]) 2
        Direction.both).nodes) ∧
    (buildCallGraph chainIndex (mkDef "a" ["b"]) 1
        Direction.both).nodes.length ≤
      (buildCallGraph chainIndex (mkDef "a" ["b"]) 2
        Direction.both).nodes.length :=
  claim_C8_amended_depth_one_nodes chainIndex (mkDef "a" ["b"])
    Direction.both 2 (by decide)

/-- C1: `calculateRiskScore` equals the spec formula
`min(100, directCallers*2 + (totalAffected - directCallers)*1 +
(isHotspot ? 15 : 0) + cycleCount*10 + floor(cyclomaticComplexity/5)*1)`
for every input; raising `cycleCount` from 0 to 1 adds exactly 10 to the
pre-clamp score unconditionally, and to the final score whenever the raised
pre-clamp score still lies within the clamp. -/
theorem claim_C1_riskScore_formula_and_cycle_increment :
    (∀ (dc ta cyc : Nat) (m : ComplexityMetrics),
        calculateRiskScore dc ta m cyc =
          riskScoreSpecFormula dc ta m.isHotspot cyc m.cyclomaticComplexity) ∧
    (∀ (dc ta : Nat) (m : ComplexityMetrics),
        preClampRiskScore dc ta m.isHotspot 1 m.cyclomaticComplexity =
          preClampRiskScore dc ta m.isHotspot 0 m.cyclomaticComplexity + 10) ∧
    (∀ (dc ta : Nat) (m : ComplexityMetrics),
        preClampRiskScore dc ta m.isHotspot 1 m.cyclomaticComplexity ≤ 100 →
          calculateRiskScore dc ta m 1 = calculateRiskScore dc ta m 0 + 10) := by
  refine ⟨?_, ?_, ?_⟩
  · intro dc ta cyc m
    simp only [calculateRiskScore, riskScoreSpecFormula, preClampRiskScore]
  · intro dc ta m
    simp only [preClampRiskScore]
    cases m.isHotspot <;> simp <;> ring
  · intro dc ta m h
    have hkey : preClampRiskScore dc ta m.isHotspot 1 m.cyclomaticComplexity =
        preClampRiskScore dc ta m.isHotspot 0 m.cyclomaticComplexity + 10 := by
      simp only [preClampRiskScore]
      cases m.isHotspot <;> simp <;> ring
    simp only [calculateRiskScore]
    rw [hkey] at h ⊢
    omega

/-- Witness for C1: a concrete input whose raised pre-clamp score is within
the clamp, so the final risk score rises by exactly 10. -/
theorem claim_C1_witness :
    preClampRiskScore 1 2 false 1 7 ≤ 100 ∧
      calculateRiskScore 1 2 ⟨0, 0, 7, false, 0⟩ 1 =
        calculateRiskScore 1 2 ⟨0, 0, 7, false, 0⟩ 0 + 10 :=
  ⟨by decide,
    claim_C1_riskScore_formula_and_cycle_increment.2.2 1 2 ⟨0, 0, 7, false, 0⟩
      (by decide)⟩

/-- C4: the complexity metrics mark a function as a hotspot exactly when
fan-in and fan-out are both at least 5; in particular (5, 5) is a hotspot
and (4, 10) is not. -/
theorem claim_C4_hotspot_thresholds :
    (∀ (cc fi fo : Nat),
        ((calculateComplexity cc fi fo).isHotspot = true ↔ 5 ≤ fi ∧ 5 ≤ fo)) ∧
    (∀ cc : Nat, (calculateComplexity cc 5 5).isHotspot = true) ∧
    (∀ cc : Nat, (calculateComplexity cc 4 10).isHotspot = false) := by
  refine ⟨?_, ?_, ?_⟩
  · intro cc fi fo
    simp [calculateComplexity]
  · intro cc
    simp [calculateComplexity]
  · intro cc
    simp [calculateComplexity]

/-- C5: for a self-recursive target `A` whose body contains a call to `A`
and otherwise only built-in calls, the callee traversal terminates (it is a
total function) and, for every depth ≥ 1, the resulting graph's node set
is exactly `{A}`. -/
theorem claim_C5_self_cycle_single_node (defs : List FuncDef)
    (dA : FuncDef) (d : Nat) (hd : 1 ≤ d)
    (hcalls : ∀ c ∈ dA.calls, c.calleeName = dA.name ∨
      isBuiltInFunction c.calleeName c.fullExpression = true)
    (_hself : ∃ c ∈ dA.calls, c.calleeName = dA.name ∧
      isBuiltInFunction c.calleeName c.fullExpression = false) :
    keys (buildCallGraph defs dA d Direction.callees).nodes = [dA.name] ∧
    (buildCallGraph defs dA d Direction.callees).nodes.length = 1 := by
  obtain ⟨d', rfl⟩ : ∃ d', d = d' + 1 := ⟨d - 1, by omega⟩
  have hkeys : keys (buildCallGraph defs dA (d' + 1)
      Direction.callees).nodes = [dA.name] := by
    simp only [buildCallGraph]
    norm_num
    simp only [buildCalleesGo]
    rw [if_neg (by simp)]
    exact buildCalleesLoop_self_inv defs d' true dA.name dA.calls
      { nodes := [(dA.name, nodeOfDef dA)], edges := [],
        visited := [] ++ [dA.name] } [] hcalls (by simp) (by simp [keys])
  refine ⟨hkeys, ?_⟩
  have : (keys (buildCallGraph defs dA (d' + 1)
      Direction.callees).nodes).length = 1 := by
    rw [hkeys]
    rfl
  simpa [keys] using this

/-- Witness for C5: a concrete self-recursive function at depth 3. -/
theorem claim_C5_witness :
    keys (buildCallGraph selfIndex (mkDef "A" ["A"]) 3
        Direction.callees).nodes = ["A"] ∧
    (buildCallGraph selfIndex (mkDef "A" ["A"]) 3
        Direction.callees).nodes.length = 1 :=
  claim_C5_self_cycle_single_node selfIndex (mkDef "A" ["A"]) 3
    (by decide) (by decide)
    ⟨mkCall "A", by decide, by decide, by decide⟩

/-- C9: for a self-recursive function `A`, the project-wide callers map of
`analyzeImpact` records `A` as a caller of `A`, so `A` appears in its own
`directCallers`; by contrast `buildCallGraph`'s caller traversal skips the
`caller = callee` case, so its `callers` list never contains the target
for any index, target, depth and direction. -/
theorem claim_C9_self_caller_asymmetry :
    (∀ (defs : List FuncDef) (A : String),
        A ∈ lookupD (buildFunctionCallMap defs) A [] →
          A ∈ impactDirectCallers defs A) ∧
    (∀ (defs : List FuncDef) (target : FuncDef) (depth : Nat)
        (dir : Direction),
        target.name ∉ (buildCallGraph defs target depth dir).callers) := by
  constructor
  · intro defs A h
    exact buildCallersMap_self_mem _ A h
  · intro defs target depth dir hmem
    simp only [buildCallGraph] at hmem
    by_cases hdir : (dir == Direction.callers || dir == Direction.both) = true
    · rw [if_pos hdir] at hmem
      exact findCallersGo_dc_ne (cliFunctionCallMap defs) target.name depth
        true target.name _ [] (by intro x hx; simp at hx) target.name hmem
        rfl
    · rw [if_neg hdir] at hmem
      simp at hmem

/-- Witness for C9: the concrete self-recursive index; `A` is among its own
direct callers in the impact analysis. -/
theorem claim_C9_witness :
    "A" ∈ lookupD (buildFunctionCallMap selfIndex) "A" [] ∧
    "A" ∈ impactDirectCallers selfIndex "A" :=
  ⟨by decide,
    claim_C9_self_caller_asymmetry.1 selfIndex "A" (by decide)⟩

/-- C6: every cycle reported by the circular-dependency detector contains
the target function name, and no two reported cycles have exactly the same
set of function names (so rotations of one cycle are reported at most once
across all DFS start points). -/
theorem claim_C6_cycles_contain_target_and_dedup (functionName : String)
    (fcm callersMap : List (String × List String)) :
    (∀ c ∈ detectCircularDependencies functionName fcm callersMap,
        functionName ∈ c) ∧
    (detectCircularDependencies functionName fcm callersMap).Pairwise
      (fun c1 c2 => c1.toFinset ≠ c2.toFinset) := by
  have hfold : ∀ (starts : List String) (fuelN : Nat) (st : DfsState),
      DetectInv functionName st →
      DetectInv functionName (starts.foldl
        (fun st2 start => dfsDetect fcm functionName fuelN start
          { cycles := st2.cycles, visited := [], path := [] }) st) := by
    intro starts
    induction starts with
    | nil =>
        intro fuelN st h
        exact h
    | cons s rest ih =>
        intro fuelN st h
        obtain ⟨hp, hc, hw⟩ := h
        exact ih fuelN _ (dfsDetect_inv fcm functionName fuelN s
          ⟨st.cycles, [], []⟩ (by exact ⟨List.nodup_nil, hc, hw⟩))
  have hres := hfold
    (functionName :: lookupD callersMap functionName [])
    (detectFuel fcm (functionName :: lookupD callersMap functionName []))
    ⟨[], [], []⟩ (by exact ⟨List.nodup_nil, by simp, by simp⟩)
  obtain ⟨hp, hc, hw⟩ := hres
  exact ⟨fun c hcm => (hc c hcm).1, hw⟩

/-- C7: on the linear chain `a → b → c`, the callee graph of `a` at depth 2
has node set `{a, b, c}`, edge list `[(a, b), (b, c)]`, and direct-callee
list `[b]`. -/
theorem claim_C7_linear_chain_scenario :
    keys (buildCallGraph chainIndex (mkDef "a" ["b"]) 2
        Direction.callees).nodes = ["a", "b", "c"] ∧
    (buildCallGraph chainIndex (mkDef "a" ["b"]) 2
        Direction.callees).edges.map (fun e => (e.fromName, e.toName)) =
      [("a", "b"), ("b", "c")] ∧
    (buildCallGraph chainIndex (mkDef "a" ["b"]) 2
        Direction.callees).callees = ["b"] := by
  decide

/-- C10: the MCP depth validator always hands the core a depth in `[1, 10]`;
missing, `null`, non-numeric and `NaN` inputs map to the default (2, or 3
for `analyze_impact`), and finite numbers map to `floor` clamped into
`[1, 10]`. -/
theorem claim_C10_validateDepth_range :
    (∀ v : JSDepthInput,
        (1 ≤ validateDepth v 2 ∧ validateDepth v 2 ≤ 10) ∧
        (1 ≤ validateDepth v 3 ∧ validateDepth v 3 ≤ 10)) ∧
    (validateDepth JSDepthInput.undef 2 = 2 ∧
      validateDepth JSDepthInput.null 2 = 2 ∧
      validateDepth JSDepthInput.notNumber 2 = 2 ∧
      validateDepth JSDepthInput.nan 2 = 2 ∧
      validateDepth JSDepthInput.undef 3 = 3 ∧
      validateDepth JSDepthInput.null 3 = 3 ∧
      validateDepth JSDepthInput.notNumber 3 = 3 ∧
      validateDepth JSDepthInput.nan 3 = 3) ∧
    (∀ q : ℚ,
        validateDepth (JSDepthInput.num q) 2 = min (max 1 ⌊q⌋) 10 ∧
        validateDepth (JSDepthInput.num q) 3 = min (max 1 ⌊q⌋) 10) := by
  refine ⟨?_, by simp [validateDepth], ?_⟩
  · intro v
    cases v <;> simp [validateDepth, MIN_DEPTH, MAX_DEPTH]
  · intro q
    simp [validateDepth, MIN_DEPTH, MAX_DEPTH]

end FuncFlow
